import Mathlib

/-!
# Verification of the pdf-pipeline extraction core

A shallow embedding, in Lean 4, of the extraction decision pipeline of the
pdf-pipeline repository: the rules engine (`src/rules/extraction-rules.js`),
the cost tracker (`src/llm/cost-tracker.js`), the LLM provider wiring
(`src/llm/llm-provider.js`) and the field-extraction orchestrator
(`src/extraction/field-extractor.js`).

Modelling conventions:
* JavaScript numbers are embedded as exact rationals.  All numeric literals
  involved in the pipeline's comparisons and confidence arithmetic are small
  decimal fractions, compared and added exactly, so exact rational
  arithmetic is faithful on every value the proofs touch (no NaN/Infinity
  arises on these code paths).  The rationals are carried in the computable
  representation `Q` below (numerator, positive denominator, normalized by
  construction); `Q.toRat` interprets them in Mathlib's `ℚ` and every
  operation is proved to commute with that interpretation, so order
  reasoning happens in `ℚ` while closed runs of the pipeline evaluate by
  `decide`.
* JavaScript objects used as string-keyed dictionaries (extraction results,
  cost maps, the parsed LLM response) are embedded as insertion-ordered
  association lists; property assignment updates the first matching key in
  place and otherwise appends, which is exactly the JS semantics for string
  keys, and `Map.set` behaves the same way.
* Host functionality that the repository calls but does not define (the
  regular-expression engine behind `String.prototype.matchAll`, `Date`
  parsing/formatting, `JSON.parse`, locale date formatting) is embedded as
  explicit function parameters ("oracles"): a pattern carries its `source`
  text together with its `matchAll` behaviour, and date/JSON handling is
  passed in.  All code written in the repository itself is translated
  directly.
* `Array.prototype.sort` with a numeric comparator is a stable sort in
  modern engines; it is embedded as a stable insertion sort on the key.
-/

/-! ## Exact computable rationals -/

/-- An exact rational in a kernel-computable representation: numerator and
positive denominator.  All pipeline operations build values through
`Q.norm`, so representations stay reduced and structural equality on the
values the pipeline produces coincides with numeric equality. -/
structure Q where
  num : Int
  den : Nat
  pos : 0 < den
deriving DecidableEq

/-- Interpretation in Mathlib's `ℚ`. -/
def Q.toRat (q : Q) : ℚ := (q.num : ℚ) / (q.den : ℚ)

/-- Reduce a fraction with positive denominator. -/
def Q.norm (n : Int) (d : Nat) (h : 0 < d) : Q :=
  ⟨n / (n.natAbs.gcd d : Int), d / n.natAbs.gcd d, by
    have hg : 0 < n.natAbs.gcd d := Nat.gcd_pos_of_pos_right _ h
    exact Nat.div_pos (Nat.le_of_dvd h (Nat.gcd_dvd_right _ _)) hg⟩

def Q.ofNat (n : Nat) : Q := ⟨n, 1, one_pos⟩

def Q.ofInt (n : Int) : Q := ⟨n, 1, one_pos⟩

/-- The decimal literal `m × 10⁻ᵉ` (e.g. `Q.dec 5 2` is `0.05`). -/
def Q.dec (m : Int) (e : Nat) : Q :=
  Q.norm m (10 ^ e) (Nat.pos_pow_of_pos e (by decide))

def Q.add (a b : Q) : Q :=
  Q.norm (a.num * b.den + b.num * a.den) (a.den * b.den) (Nat.mul_pos a.pos b.pos)

def Q.mul (a b : Q) : Q :=
  Q.norm (a.num * b.num) (a.den * b.den) (Nat.mul_pos a.pos b.pos)

def Q.neg (a : Q) : Q := ⟨-a.num, a.den, a.pos⟩

/-- Division; a zero divisor (which would give `Infinity`/`NaN` in JS) is
mapped to `0` and never arises on the code paths the proofs evaluate. -/
def Q.div (a b : Q) : Q :=
  if hb : 0 < b.num then
    Q.norm (a.num * b.den) (a.den * b.num.toNat)
      (Nat.mul_pos a.pos (by omega))
  else if hb2 : b.num < 0 then
    Q.norm (-(a.num * b.den)) (a.den * (-b.num).toNat)
      (Nat.mul_pos a.pos (by omega))
  else ⟨0, 1, one_pos⟩

/-- Numeric order, by cross-multiplication (denominators are positive). -/
def Q.le (a b : Q) : Prop := a.num * (b.den : Int) ≤ b.num * (a.den : Int)

def Q.lt (a b : Q) : Prop := a.num * (b.den : Int) < b.num * (a.den : Int)

instance (a b : Q) : Decidable (a.le b) :=
  inferInstanceAs (Decidable (_ ≤ _))

instance (a b : Q) : Decidable (a.lt b) :=
  inferInstanceAs (Decidable (_ < _))

/-- `Math.min` on two numbers. -/
def qmin (a b : Q) : Q := if a.le b then a else b

/-- `Math.max` on two numbers. -/
def qmax (a b : Q) : Q := if a.le b then b else a

/-- `Math.floor` (Int `/` is Euclidean division, which floors here since
denominators are positive). -/
def Q.floor (q : Q) : Int := q.num / (q.den : Int)

/-! ## Host-data shapes -/

/-- One regex match as produced by `String.prototype.matchAll`:
`full` is `match[0]`, `captured` is `match[1]` (absent when the pattern has
no capture group or it did not participate), `index` is `match.index`. -/
structure JsMatch where
  full : String
  captured : Option String
  index : Nat
deriving Repr, DecidableEq

/-- A regex literal of the source: its `source` text (used by
`calculateConfidence` for the length bonus) plus the host regex engine's
`matchAll` behaviour on a given input string. -/
structure Pattern where
  source : String
  matchAll : String → List JsMatch

/-- An extraction rule: `{patterns, validators, priority}`.  A validator that
throws is treated as returning `false` by `validateValue`, so validators are
embedded directly as boolean predicates. -/
structure Rule where
  patterns : List Pattern
  validators : List (String → Bool)
  priority : Int

/-- One extracted candidate.  Rules-stage candidates carry
`position`/`context` and no `source`; LLM candidates carry
`source = "llm"` and a fixed context string and no position. -/
structure Candidate where
  value : String
  confidence : Q
  position : Option Nat
  context : Option String
  source : Option String
deriving DecidableEq

/-- `fieldName → array of candidates`, as an insertion-ordered object. -/
abbrev FieldMap := List (String × List Candidate)

/-- Association-list lookup: JS object property read / `Map.get`,
`none` for `undefined`. -/
def alookup {α : Type} : List (String × α) → String → Option α
  | [], _ => none
  | (k₀, v) :: rest, k => if k₀ = k then some v else alookup rest k

/-- JS object property read `m[f]` combined with the `|| []` /
`!matches || matches.length === 0` handling the code applies everywhere a
field's match list is consumed: `undefined` and `[]` are treated alike. -/
def getField (m : FieldMap) (f : String) : List Candidate :=
  (alookup m f).getD []

/-- Generic JS `Map.set` / object property assignment on an association
list: overwrite the first matching key in place, otherwise append. -/
def aset {α : Type} : List (String × α) → String → α → List (String × α)
  | [], k, v => [(k, v)]
  | (k₀, v₀) :: rest, k, v =>
    if k₀ = k then (k₀, v) :: rest else (k₀, v₀) :: aset rest k v

/-- Stable insertion (descending by `key`): an element is placed after every
element whose key is ≥ its own, exactly the order produced by the stable
`Array.prototype.sort((a, b) => key(b) - key(a))`. -/
def insertDescBy {α : Type} (key : α → Q) (x : α) : List α → List α
  | [] => [x]
  | y :: ys => if (key x).le (key y) then y :: insertDescBy key x ys else x :: y :: ys

/-- Stable descending sort by a rational key. -/
def stableSortDesc {α : Type} (key : α → Q) (l : List α) : List α :=
  l.foldl (fun acc x => insertDescBy key x acc) []

/-! ## CostTracker (`src/llm/cost-tracker.js`)

Only the fields `canMakeRequest` reads are carried in the state: each
session's running `totalCost` and the per-date `dailyTotals` map.  The
per-request log (`requests`, with host timestamps) and `startTime` are not
consulted by any gating decision.  The current date string
(`new Date().toISOString().split('T')[0]`) is host state and is passed in
as `today`. -/

structure CostState where
  /-- `this.costs` : sessionId → session ledger's `totalCost`. -/
  costs : List (String × Q)
  /-- `this.dailyTotals` : date string → accumulated cost. -/
  dailyTotals : List (String × Q)
deriving DecidableEq

/-- Result shape of `canMakeRequest`. -/
structure CanRequestResult where
  allowed : Bool
  reason : Option String
  sessionCost : Option Q
  dailyCost : Option Q
deriving DecidableEq

/-- The day's accumulated total, `this.dailyTotals.get(today) || 0`. -/
def dailyTotalOf (st : CostState) (today : String) : Q :=
  (alookup st.dailyTotals today).getD (Q.ofNat 0)

namespace CostTracker

/-- `CostTracker.canMakeRequest(sessionId, maxCostPerRequest, maxDailyCost = null)`.

The per-request branch is translated exactly as written in the source: the
guard `maxCostPerRequest && maxCostPerRequest > 0` (JS truthiness of a
number is being nonzero) encloses the comparison
`maxCostPerRequest > maxCostPerRequest` — the cap compared against itself.
The daily branch fires when a truthy daily cap is supplied and
`dailyTotal + maxCostPerRequest > maxDailyCost`. -/
def canMakeRequest (st : CostState) (today : String) (sessionId : String)
    (maxCostPerRequest : Q) (maxDailyCost : Option Q) : CanRequestResult :=
  let dailyTotal := dailyTotalOf st today
  if maxCostPerRequest.num ≠ 0 ∧ (Q.ofNat 0).lt maxCostPerRequest ∧
      maxCostPerRequest.lt maxCostPerRequest then
    { allowed := false, reason := some "Request would exceed per-request cost limit",
      sessionCost := none, dailyCost := none }
  else if (match maxDailyCost with
           | some cap => decide (cap.num ≠ 0) && decide (cap.lt (dailyTotal.add maxCostPerRequest))
           | none => false) then
    { allowed := false, reason := some "Request would exceed daily cost limit",
      sessionCost := none, dailyCost := none }
  else
    { allowed := true, reason := none,
      sessionCost := some ((alookup st.costs sessionId).getD (Q.ofNat 0)),
      dailyCost := some dailyTotal }

/-- Static per-model price table (`CostTracker.PRICING`); unknown models fall
back to the zero-priced local entry in `calculateCost`.  `0.00015 / 1000`
and the like are transcribed as written. -/
def PRICING : List (String × (Q × Q)) :=
  [ ("gpt-4o-mini", ((Q.dec 15 5).div (Q.ofNat 1000), (Q.dec 6 4).div (Q.ofNat 1000))),
    ("gpt-3.5-turbo", ((Q.dec 5 4).div (Q.ofNat 1000), (Q.dec 15 4).div (Q.ofNat 1000))),
    ("ollama", (Q.ofNat 0, Q.ofNat 0)) ]

/-- `calculateCost(model, inputTokens, outputTokens)`. -/
def calculateCost (model : String) (inputTokens outputTokens : Q) : Q :=
  let pricing := (alookup PRICING model).getD
    ((alookup PRICING "ollama").getD (Q.ofNat 0, Q.ofNat 0))
  (inputTokens.mul pricing.1).add (outputTokens.mul pricing.2)

/-- `trackRequest(sessionId, model, inputTokens, outputTokens)` restricted to
the state the model carries: the session's `totalCost` accumulation and the
daily total accumulation (the appended request record holds host timestamps
and is not read by any gate). Returns the new state. -/
def trackRequest (st : CostState) (today : String) (sessionId : String)
    (model : String) (inputTokens outputTokens : Q) : CostState :=
  let cost := calculateCost model inputTokens outputTokens
  let sessionTotal := (alookup st.costs sessionId).getD (Q.ofNat 0)
  { costs := aset st.costs sessionId (sessionTotal.add cost),
    dailyTotals := aset st.dailyTotals today
      (((alookup st.dailyTotals today).getD (Q.ofNat 0)).add cost) }

end CostTracker

/-! ## String helpers shared by the rules engine and the post-processor

Core `String` functions whose Lean implementations do not reduce in the
kernel (`toLower`, `trim`, `splitOn`) are re-implemented here over the
character list, with JS semantics on the ASCII data in play. -/

/-- `s.toLowerCase()` (ASCII). -/
def jsToLower (s : String) : String :=
  String.mk (s.toList.map Char.toLower)

/-- Character-level whitespace test (JS `\s` on the data in play). -/
def isWs (c : Char) : Bool :=
  c == ' ' || c == '\t' || c == '\n' || c == '\r'

/-- `s.trim()`: strip leading and trailing whitespace. -/
def jsTrim (s : String) : String :=
  String.mk (((s.toList.dropWhile isWs).reverse.dropWhile isWs).reverse)

/-- Substring containment over characters (`String.prototype.includes`). -/
def containsSubGo (needle : List Char) (hay : List Char) : Bool :=
  needle.isPrefixOf hay ||
    match hay with
    | [] => false
    | _ :: rest => containsSubGo needle rest

/-- `hay.includes(needle)`. -/
def strContains (hay needle : String) : Bool :=
  containsSubGo needle.toList hay.toList

/-- `s.substring(a, b)` with the clamping (and argument swap) JS performs. -/
def jsSubstring (s : String) (a b : Nat) : String :=
  let len := s.length
  let x := min a len
  let y := min b len
  let lo := min x y
  let hi := max x y
  String.mk ((s.toList.drop lo).take (hi - lo))

/-- `value.replace(/\s+/g, ' ')`: collapse each whitespace run to one space.
The boolean tracks whether the previous character was part of a run. -/
def collapseWsGo : Bool → List Char → List Char
  | _, [] => []
  | prevWs, c :: rest =>
    if isWs c then
      if prevWs then collapseWsGo true rest
      else ' ' :: collapseWsGo true rest
    else c :: collapseWsGo false rest

def collapseWs (s : String) : String :=
  String.mk (collapseWsGo false s.toList)

/-- A JS `\w` character: `[A-Za-z0-9_]`. -/
def isWordChar (c : Char) : Bool :=
  c.isAlphanum || c == '_'

/-- `value.replace(/\w\S*/g, txt => txt.charAt(0).toUpperCase() + txt.substr(1).toLowerCase())`
as a left-to-right scan: a token starts at a `\w` character outside a token
and extends over non-whitespace. -/
def titleCaseGo : Bool → List Char → List Char
  | _, [] => []
  | inTok, c :: rest =>
    if inTok then
      if isWs c then c :: titleCaseGo false rest
      else c.toLower :: titleCaseGo true rest
    else
      if isWordChar c then c.toUpper :: titleCaseGo true rest
      else c :: titleCaseGo false rest

def titleCase (s : String) : String :=
  String.mk (titleCaseGo false s.toList)

/-- Digits of `s` (`value.replace(/\D/g, '')`). -/
def digitsOf (s : String) : List Char :=
  s.toList.filter Char.isDigit

/-- `value.replace(/[,$]/g, '')`. -/
def stripDollarComma (s : String) : String :=
  String.mk (s.toList.filter (fun c => !(c == ',' || c == '$')))

/-- `s.split(' ').length` counting (for the name-rule validator). -/
def splitSpaceCount (s : String) : Nat :=
  (s.toList.filter (fun c => c == ' ')).length + 1

def digitsToNat (ds : List Char) : Nat :=
  ds.foldl (fun n c => 10 * n + (c.toNat - 48)) 0

/-- `parseFloat` on the plain decimal notation (`[+-]?digits[.digits]`) that
the pipeline feeds it; exponents/`Infinity` never occur on these code paths.
`none` models `NaN`. -/
def jsParseFloat (s : String) : Option Q :=
  let cs := s.toList.dropWhile isWs
  let negFlag : Bool := match cs with | '-' :: _ => true | _ => false
  let cs := match cs with
    | '-' :: t => t
    | '+' :: t => t
    | _ => cs
  let intPart := cs.takeWhile Char.isDigit
  let rest := cs.dropWhile Char.isDigit
  let fracPart := match rest with
    | '.' :: t => t.takeWhile Char.isDigit
    | _ => []
  if intPart.isEmpty && fracPart.isEmpty then none
  else
    let mag := (Q.ofNat (digitsToNat intPart)).add (Q.dec (digitsToNat fracPart) fracPart.length)
    some (if negFlag then mag.neg else mag)

/-- `num.toFixed(2)` (round to nearest, ties away from zero). -/
def jsToFixed2 (q : Q) : String :=
  let n : Int :=
    if (Q.ofNat 0).le q then ((q.mul (Q.ofNat 100)).add (Q.dec 5 1)).floor
    else -(((q.neg.mul (Q.ofNat 100)).add (Q.dec 5 1)).floor)
  let sign := if n < 0 then "-" else ""
  let whole := n.natAbs / 100
  let frac := n.natAbs % 100
  sign ++ toString whole ++ "." ++ (if frac < 10 then "0" else "") ++ toString frac

/-! ## RulesEngine (`src/rules/extraction-rules.js`) -/

namespace RulesEngine

/-- `cleanValue(value, fieldType)`; `none` models the `null` returned for a
falsy input, and the switch applies the per-field normalization. -/
def cleanValue (value : String) (fieldType : String) : Option String :=
  if value = "" then none
  else
    let cleaned := jsTrim value
    if fieldType = "email" then some (jsToLower cleaned)
    else if fieldType = "phone" then some (String.mk (digitsOf cleaned))
    else if fieldType = "amount" then some (stripDollarComma cleaned)
    else if fieldType = "name" ∨ fieldType = "company" then some (jsTrim (collapseWs cleaned))
    else some cleaned

/-- `validateValue(value, validators)`: every validator must accept; a
validator that throws counts as rejection (validators are embedded as the
boolean predicates they compute, with a throw embedded as `false`). -/
def validateValue (value : String) (validators : List (String → Bool)) : Bool :=
  validators.all (fun validator => validator value)

/-- `calculateConfidence(match, pattern, rule)`: base 0.5, +0.1 for a pattern
source longer than 20 characters, +0.2 for each of the keywords
"email"/"phone"/"amount" in the ±20-character window around the match, plus
`(10 - rule.priority) * 0.05`, finally `Math.min(confidence, 1.0)`.
There is no lower clamp.  `match.input` is the full text searched. -/
def calculateConfidence (text : String) (m : JsMatch) (p : Pattern) (rule : Rule) : Q :=
  let confidence : Q := Q.dec 5 1
  let confidence := if 20 < p.source.length then confidence.add (Q.dec 1 1) else confidence
  let context := jsSubstring text (m.index - 20) (m.index + m.full.length + 20)
  let contextLower := jsToLower context
  let confidence := if strContains contextLower "email" then confidence.add (Q.dec 2 1) else confidence
  let confidence := if strContains contextLower "phone" then confidence.add (Q.dec 2 1) else confidence
  let confidence := if strContains contextLower "amount" then confidence.add (Q.dec 2 1) else confidence
  let confidence := confidence.add ((Q.ofInt (10 - rule.priority)).mul (Q.dec 5 2))
  qmin confidence (Q.ofNat 1)

/-- `extractContext(text, position, radius = 50)`. -/
def extractContext (text : String) (position : Nat) (radius : Nat) : String :=
  jsTrim (collapseWs (jsSubstring text (position - radius) (position + radius)))

/-- `extractField(text, rule, fieldName)`: every pattern's matches, value =
capture group `||` full match, cleaned and validated, confidence computed,
then sorted descending by confidence.  (The intermediate `Set` holds
freshly-built objects, so it never merges anything; insertion order is
pattern-major, match-minor.) -/
def extractField (text : String) (rule : Rule) (fieldName : String) : List Candidate :=
  let candidates := rule.patterns.foldl (fun acc p =>
    acc ++ (p.matchAll text).filterMap (fun m =>
      let value := match m.captured with
        | some s => if s = "" then m.full else s
        | none => m.full
      match cleanValue value fieldName with
      | none => none
      | some cv =>
        if cv ≠ "" ∧ validateValue cv rule.validators then
          some { value := cv,
                 confidence := calculateConfidence text m p rule,
                 position := some m.index,
                 context := some (extractContext text m.index 50),
                 source := none }
        else none)) []
  stableSortDesc (fun c => c.confidence) candidates

/-- The loop body of `removeDuplicates`: for each match,
`if (!unique.has(key) || unique.get(key).confidence < match.confidence) unique.set(key, match)`
with `key = match.value.toLowerCase()` (`Map.set` appends a fresh key, and
replaces in place an existing one). -/
def dedupStep (acc : List (String × Candidate)) (m : Candidate) : List (String × Candidate) :=
  let key := jsToLower m.value
  match alookup acc key with
  | none => acc ++ [(key, m)]
  | some c => if c.confidence.lt m.confidence then aset acc key m else acc

/-- `removeDuplicates(matches)`: a `Map` keyed by the lowercased value keeps,
per key, the first highest-confidence candidate (strictly greater replaces,
in place); the surviving values are then sorted descending by confidence. -/
def removeDuplicates (ms : List Candidate) : List Candidate :=
  stableSortDesc (fun c => c.confidence) ((ms.foldl dedupStep []).map (fun p => p.2))

/-- `rankAndCleanResults(results)`: keep only fields with at least one match,
deduplicate, and truncate to the top 5. -/
def rankAndCleanResults (results : FieldMap) : FieldMap :=
  results.filterMap (fun p =>
    if p.2.isEmpty then none
    else some (p.1, (removeDuplicates p.2).take 5))

/-- Engine instance state: the built-in registry `this.rules` and the
runtime-extensible `this.customRules` map. -/
structure State where
  rules : List (String × Rule)
  customRules : List (String × Rule)

/-- `addCustomRule(fieldName, rule)` (`Map.set` semantics). -/
def addCustomRule (st : State) (fieldName : String) (rule : Rule) : State :=
  { st with customRules := aset st.customRules fieldName rule }

/-- The guard `!specificFields || specificFields.includes(fieldName)` of the
custom-rule loop. -/
def subsetAllows (specificFields : Option (List String)) (fieldName : String) : Bool :=
  match specificFields with
  | none => true
  | some fs => fs.contains fieldName

/-- `extractFields(text, specificFields = null)`: apply the built-in rules
(filtered by the subset when given), then the custom rules (each applied
unless a subset is given that omits it), then rank and clean. -/
def extractFields (st : State) (text : String) (specificFields : Option (List String)) : FieldMap :=
  let rulesToApply : List (String × Rule) := match specificFields with
    | some fs => st.rules.filter (fun p => fs.contains p.1)
    | none => st.rules
  let results := rulesToApply.foldl
    (fun acc (p : String × Rule) => aset acc p.1 (extractField text p.2 p.1)) []
  let results := st.customRules.foldl (fun acc p =>
    if subsetAllows specificFields p.1 then
      aset acc p.1 (extractField text p.2 p.1)
    else acc) results
  rankAndCleanResults results

/-- Statistics record returned by `getExtractionStats`. -/
structure Stats where
  totalFields : Nat
  extractedFields : Nat
  totalMatches : Nat
  averageConfidence : Q
  extractionRate : Q
deriving DecidableEq

/-- `getExtractionStats(results)`: `totalFields` is the whole registry
(built-ins plus custom rules) regardless of any subset; the remaining
numbers aggregate over the non-empty result fields.  (In JS a zero
`totalFields` denominator would give `NaN`; the wired engine always has 8
built-in rules, and the `matchCount` case is guarded.) -/
def getExtractionStats (st : State) (results : FieldMap) : Stats :=
  let totalFields := st.rules.length + st.customRules.length
  let counts := results.foldl (fun (acc : Nat × Nat × Q) p =>
    if !p.2.isEmpty then
      (acc.1 + 1, acc.2.1 + p.2.length,
       acc.2.2.add (p.2.foldl (fun s c => s.add c.confidence) (Q.ofNat 0)))
    else acc) (0, 0, Q.ofNat 0)
  { totalFields := totalFields,
    extractedFields := counts.1,
    totalMatches := counts.2.1,
    averageConfidence := if 0 < counts.2.1 then counts.2.2.div (Q.ofNat counts.2.1) else Q.ofNat 0,
    extractionRate := (Q.ofNat counts.1).div (Q.ofNat totalFields) }

end RulesEngine

/-- The built-in registry `EXTRACTION_RULES`, parameterized by the host regex
engine (`exec src text` is `Array.from(text.matchAll(/src/flags))`) and by
host date parsing (`dateParse d` is `Date.parse(d)` in epoch milliseconds,
`none` for `NaN`).  Regex source texts are transcribed verbatim (braces
written as `\x7b`/`\x7d`); priorities and validators as in the source.
`-2208988800000` is the epoch value of `new Date('1900-01-01')`, and an
invalid date compares false. -/
def EXTRACTION_RULES (exec : String → String → List JsMatch)
    (dateParse : String → Option Int) : List (String × Rule) :=
  [ ("email",
     { patterns :=
         [ ⟨"([a-zA-Z0-9._%+-]+@[a-zA-Z0-9.-]+\\.[a-zA-Z]\x7b2,\x7d)",
            exec "([a-zA-Z0-9._%+-]+@[a-zA-Z0-9.-]+\\.[a-zA-Z]\x7b2,\x7d)"⟩,
           ⟨"\\b[A-Z0-9._%+-]+@[A-Z0-9.-]+\\.[A-Z]\x7b2,\x7d\\b",
            exec "\\b[A-Z0-9._%+-]+@[A-Z0-9.-]+\\.[A-Z]\x7b2,\x7d\\b"⟩ ],
       validators :=
         [ fun email => strContains email "@" && strContains email ".",
           fun email => decide (5 < email.length) && decide (email.length < 255) ],
       priority := 1 }),
    ("phone",
     { patterns :=
         [ ⟨"(\\+?1[-.\\s]?)?\\(?([0-9]\x7b3\x7d)\\)?[-.\\s]?([0-9]\x7b3\x7d)[-.\\s]?([0-9]\x7b4\x7d)",
            exec "(\\+?1[-.\\s]?)?\\(?([0-9]\x7b3\x7d)\\)?[-.\\s]?([0-9]\x7b3\x7d)[-.\\s]?([0-9]\x7b4\x7d)"⟩,
           ⟨"(\\+?[1-9]\\d\x7b0,3\x7d[-.\\s]?)?(\\d\x7b1,4\x7d[-.\\s]?)?\\d\x7b4,\x7d",
            exec "(\\+?[1-9]\\d\x7b0,3\x7d[-.\\s]?)?(\\d\x7b1,4\x7d[-.\\s]?)?\\d\x7b4,\x7d"⟩ ],
       validators :=
         [ fun phone => decide (10 ≤ (digitsOf phone).length),
           fun phone => decide ((digitsOf phone).length ≤ 15) ],
       priority := 2 }),
    ("name",
     { patterns :=
         [ ⟨"(?:name[:\\s]+)([A-Z][a-z]+ [A-Z][a-z]+)",
            exec "(?:name[:\\s]+)([A-Z][a-z]+ [A-Z][a-z]+)"⟩,
           ⟨"(?:from[:\\s]+)([A-Z][a-z]+ [A-Z][a-z]+)",
            exec "(?:from[:\\s]+)([A-Z][a-z]+ [A-Z][a-z]+)"⟩,
           ⟨"^([A-Z][a-z]+ [A-Z][a-z]+)",
            exec "^([A-Z][a-z]+ [A-Z][a-z]+)"⟩ ],
       validators :=
         [ fun name => decide (2 ≤ splitSpaceCount name),
           fun name => decide (3 < name.length) && decide (name.length < 100) ],
       priority := 3 }),
    ("date",
     { patterns :=
         [ ⟨"(\\d\x7b1,2\x7d\\/\\d\x7b1,2\x7d\\/\\d\x7b4\x7d)",
            exec "(\\d\x7b1,2\x7d\\/\\d\x7b1,2\x7d\\/\\d\x7b4\x7d)"⟩,
           ⟨"(\\d\x7b4\x7d-\\d\x7b2\x7d-\\d\x7b2\x7d)",
            exec "(\\d\x7b4\x7d-\\d\x7b2\x7d-\\d\x7b2\x7d)"⟩,
           ⟨"(\\w+ \\d\x7b1,2\x7d, \\d\x7b4\x7d)",
            exec "(\\w+ \\d\x7b1,2\x7d, \\d\x7b4\x7d)"⟩,
           ⟨"(\\d\x7b1,2\x7d \\w+ \\d\x7b4\x7d)",
            exec "(\\d\x7b1,2\x7d \\w+ \\d\x7b4\x7d)"⟩ ],
       validators :=
         [ fun date => (dateParse date).isSome,
           fun date => match dateParse date with
             | some t => decide (-2208988800000 < t)
             | none => false ],
       priority := 4 }),
    ("amount",
     { patterns :=
         [ ⟨"\\$([0-9,]+\\.?\\d\x7b0,2\x7d)",
            exec "\\$([0-9,]+\\.?\\d\x7b0,2\x7d)"⟩,
           ⟨"([0-9,]+\\.?\\d\x7b0,2\x7d)\\s*(?:dollars?|USD)",
            exec "([0-9,]+\\.?\\d\x7b0,2\x7d)\\s*(?:dollars?|USD)"⟩,
           ⟨"(?:amount[:\\s]+)\\$?([0-9,]+\\.?\\d\x7b0,2\x7d)",
            exec "(?:amount[:\\s]+)\\$?([0-9,]+\\.?\\d\x7b0,2\x7d)"⟩ ],
       validators :=
         [ fun amount => match jsParseFloat (stripDollarComma amount) with
             | some q => decide ((Q.ofNat 0).lt q)
             | none => false,
           fun amount => match jsParseFloat (stripDollarComma amount) with
             | some q => decide (q.lt (Q.ofNat 1000000))
             | none => false ],
       priority := 5 }),
    ("address",
     { patterns :=
         [ ⟨"(\\d+\\s+[A-Z][a-z\\s]+(?:Street|St|Avenue|Ave|Road|Rd|Lane|Ln|Drive|Dr|Boulevard|Blvd))",
            exec "(\\d+\\s+[A-Z][a-z\\s]+(?:Street|St|Avenue|Ave|Road|Rd|Lane|Ln|Drive|Dr|Boulevard|Blvd))"⟩,
           ⟨"(\\d+\\s+[A-Z0-9][A-Za-z0-9\\s,.-]+\\s+[A-Z]\x7b2\x7d\\s+\\d\x7b5\x7d)",
            exec "(\\d+\\s+[A-Z0-9][A-Za-z0-9\\s,.-]+\\s+[A-Z]\x7b2\x7d\\s+\\d\x7b5\x7d)"⟩ ],
       validators :=
         [ fun address => decide (10 < address.length),
           fun address => address.toList.any Char.isDigit ],
       priority := 6 }),
    ("invoiceNumber",
     { patterns :=
         [ ⟨"(?:invoice[#\\s:]+)([A-Z0-9-]+)",
            exec "(?:invoice[#\\s:]+)([A-Z0-9-]+)"⟩,
           ⟨"(?:inv[#\\s:]+)([A-Z0-9-]+)",
            exec "(?:inv[#\\s:]+)([A-Z0-9-]+)"⟩,
           ⟨"#([A-Z0-9-]\x7b6,\x7d)",
            exec "#([A-Z0-9-]\x7b6,\x7d)"⟩ ],
       validators :=
         [ fun num => decide (3 ≤ num.length),
           fun num => num.toList.any (fun c => c.isUpper || c.isDigit) ],
       priority := 7 }),
    ("company",
     { patterns :=
         [ ⟨"(?:company[:\\s]+)([A-Z][A-Za-z\\s&.,]+(?:Inc|LLC|Corp|Ltd))",
            exec "(?:company[:\\s]+)([A-Z][A-Za-z\\s&.,]+(?:Inc|LLC|Corp|Ltd))"⟩,
           ⟨"([A-Z][A-Za-z\\s&.,]+(?:Inc|LLC|Corp|Ltd))",
            exec "([A-Z][A-Za-z\\s&.,]+(?:Inc|LLC|Corp|Ltd))"⟩,
           ⟨"(?:organization[:\\s]+)([A-Z][A-Za-z\\s&.,]+)",
            exec "(?:organization[:\\s]+)([A-Z][A-Za-z\\s&.,]+)"⟩ ],
       validators :=
         [ fun company => decide (2 < company.length),
           fun company => decide (company.length < 100) ],
       priority := 8 }) ]

/-- A fresh `new RulesEngine()`: built-in registry, no custom rules. -/
def RulesEngine.new (exec : String → String → List JsMatch)
    (dateParse : String → Option Int) : RulesEngine.State :=
  { rules := EXTRACTION_RULES exec dateParse, customRules := [] }

/-! ## LLMProvider (`src/llm/llm-provider.js`) -/

namespace LLMProvider

/-- `parseExtractionResponse(responseText, missingFields)`: trim, cut to the
first `{` / last `}`, decode (`jsonParse` is host `JSON.parse`, `none` for a
throw — which the catch turns into an empty result), then keep each
requested field whose decoded value is truthy (present, non-null,
non-empty), as a single candidate with fixed confidence 0.7 and
`source = "llm"`.  Decoded values are modelled as `Option String`
(`none` = JSON `null`); non-string JSON values do not arise on the paths the
proofs evaluate. -/
def parseExtractionResponse (jsonParse : String → Option (List (String × Option String)))
    (responseText : String) (missingFields : List String) : FieldMap :=
  let cs := (jsTrim responseText).toList
  let s1 := match cs.findIdx? (fun c => c == '\x7b') with
    | some i => if 0 < i then cs.drop i else cs
    | none => cs
  let s2 := match (s1.reverse.findIdx? (fun c => c == '\x7d')).map (fun j => s1.length - 1 - j) with
    | some j => if j + 1 < s1.length then s1.take (j + 1) else s1
    | none => if 0 < s1.length then [] else s1
  match jsonParse (String.mk s2) with
  | none => []
  | some extracted =>
    missingFields.foldl (fun result field =>
      match alookup extracted field with
      | some (some v) =>
        if v ≠ "" then
          aset result field
            [{ value := v, confidence := Q.dec 7 1, position := none,
               context := some "Extracted by LLM fallback", source := some "llm" }]
        else result
      | _ => result) []

/-- The provider's `extractFields`: the pre-flight cost check is
`canMakeRequest(sessionId, this.maxCostPerRequest)` — no daily cap argument.
If denied it throws `Cost limit exceeded`; otherwise the call proceeds and
its outcome (a backend error, or the parsed field map) is `backendOutcome`. -/
def extractFieldsGate (st : CostState) (today : String) (sessionId : String)
    (maxCostPerRequest : Q) (backendOutcome : Except String FieldMap) :
    Except String FieldMap :=
  let costCheck := CostTracker.canMakeRequest st today sessionId maxCostPerRequest none
  if costCheck.allowed then backendOutcome
  else .error ("Cost limit exceeded: " ++ costCheck.reason.getD "")

end LLMProvider

/-! ## FieldExtractor (`src/extraction/field-extractor.js`) -/

namespace FieldExtractor

/-- The options object of `extract`, with the source's defaults.
(`maxLLMCost` is destructured by the source but never used.) -/
structure Options where
  sessionId : String := "default"
  enableLLMFallback : Bool := true
  confidenceThreshold : Q := Q.dec 6 1
  maxLLMCost : Option Q := none
  specificFields : Option (List String) := none

/-- `identifyMissingFields(rulesResults, confidenceThreshold, specificFields)`:
the requested fields are the explicit subset when given, otherwise
`Object.keys(this.rulesEngine.rules)` — the built-in registry only.  A field
is missing when it has no matches or its best match is below the
threshold. -/
def identifyMissingFields (st : RulesEngine.State) (rulesResults : FieldMap)
    (confidenceThreshold : Q) (specificFields : Option (List String)) : List String :=
  let availableFields : List String := match specificFields with
    | some fs => fs
    | none => st.rules.map (fun p => p.1)
  availableFields.filter (fun fieldName =>
    match getField rulesResults fieldName with
    | [] => true
    | bestMatch :: _ => decide (bestMatch.confidence.lt confidenceThreshold))

/-- The loop body of `mergeResults`: a missing field that got LLM matches
has its existing candidates (`merged[fieldName] || []`) concatenated with
the LLM candidates, sorted descending by confidence, truncated to 3 when
longer, and written back. -/
def mergeStep (llmResults : FieldMap) (merged : FieldMap) (fieldName : String) : FieldMap :=
  let llmMatches := getField llmResults fieldName
  if !llmMatches.isEmpty then
    let existingMatches := getField merged fieldName
    let combined := stableSortDesc (fun c => c.confidence) (existingMatches ++ llmMatches)
    let combined := if 3 < combined.length then combined.take 3 else combined
    aset merged fieldName combined
  else merged

/-- `mergeResults(rulesResults, llmResults, missingFields)`: start from a
copy of the rules results and run `mergeStep` over the missing fields. -/
def mergeResults (rulesResults llmResults : FieldMap) (missingFields : List String) : FieldMap :=
  missingFields.foldl (mergeStep llmResults) rulesResults

/-- `postProcessFieldValue(fieldName, value)`.  The `date` branch calls host
`Date` construction and `toLocaleDateString`, embedded as the `dateFormat`
parameter (the JS try/catch around it cannot fire: `new Date` does not
throw). -/
def postProcessFieldValue (dateFormat : String → String)
    (fieldName : String) (value : String) : String :=
  if value = "" then value
  else if fieldName = "email" then jsTrim (jsToLower value)
  else if fieldName = "phone" then
    let digits := digitsOf value
    if digits.length = 10 then
      "(" ++ String.mk (digits.take 3) ++ ") " ++ String.mk ((digits.drop 3).take 3)
        ++ "-" ++ String.mk (digits.drop 6)
    else value
  else if fieldName = "amount" then
    match jsParseFloat (stripDollarComma value) with
    | none => value
    | some num => "$" ++ jsToFixed2 num
  else if fieldName = "date" then dateFormat value
  else if fieldName = "name" ∨ fieldName = "company" then titleCase value
  else jsTrim value

/-- `postProcess(extractedFields)`: skip empty fields, clamp every
confidence to `[0,1]` (`Math.min(Math.max(c, 0), 1)`) and normalize the
value per field. -/
def postProcess (dateFormat : String → String) (extractedFields : FieldMap) : FieldMap :=
  extractedFields.filterMap (fun p =>
    if p.2.isEmpty then none
    else some (p.1, p.2.map (fun m =>
      { m with confidence := qmin (qmax m.confidence (Q.ofNat 0)) (Q.ofNat 1),
               value := postProcessFieldValue dateFormat p.1 m.value })))

/-- `calculateAverageConfidence(extractedFields)`: mean of each non-empty
field's best-candidate confidence. -/
def calculateAverageConfidence (extractedFields : FieldMap) : Q :=
  let acc := extractedFields.foldl (fun (acc : Q × Nat) p =>
    match p.2 with
    | [] => acc
    | best :: _ => (acc.1.add best.confidence, acc.2 + 1)) (Q.ofNat 0, 0)
  if 0 < acc.2 then acc.1.div (Q.ofNat acc.2) else Q.ofNat 0

/-- One entry of `recommendedReview`. -/
structure Recommendation where
  field : String
  severity : String
  message : String
  extractedValue : Option String
  alternatives : Option (List String)
deriving DecidableEq

/-- The numeric rank `{high: 3, medium: 2, low: 1}` used by the sort. -/
def severityOrder (s : String) : Q :=
  if s = "high" then Q.ofNat 3
  else if s = "medium" then Q.ofNat 2
  else if s = "low" then Q.ofNat 1
  else Q.ofNat 0

/-- The per-field branch of `getReviewRecommendations`. -/
def recOf (fieldName : String) (ms : List Candidate) : Option Recommendation :=
  match ms with
  | [] => some { field := fieldName, severity := "high",
                 message := "Field not found - manual entry required",
                 extractedValue := none, alternatives := none }
  | bestMatch :: rest =>
    if bestMatch.confidence.lt (Q.dec 5 1) then
      some { field := fieldName, severity := "medium",
             message := "Low confidence extraction - please verify",
             extractedValue := some bestMatch.value, alternatives := none }
    else match rest with
      | second :: _ =>
        if (Q.dec 6 1).lt second.confidence then
          some { field := fieldName, severity := "low",
                 message := "Multiple similar matches found - please confirm",
                 extractedValue := none,
                 alternatives := some ((ms.take 3).map (fun m => m.value)) }
        else none
      | [] => none

/-- `getReviewRecommendations(extractedFields)`: one optional entry per
field, then a stable sort descending by severity rank. -/
def getReviewRecommendations (extractedFields : FieldMap) : List Recommendation :=
  stableSortDesc (fun r => severityOrder r.severity)
    (extractedFields.filterMap (fun p => recOf p.1 p.2))

/-- The `Object.keys(extractedFields).filter(f => extractedFields[f] && extractedFields[f].length > 0)`
computation shared by the summary. -/
def fieldsWithValues (extractedFields : FieldMap) : List String :=
  (extractedFields.map (fun p => p.1)).filter (fun f => !(getField extractedFields f).isEmpty)

/-- The summary object. -/
structure Summary where
  totalFieldsRequested : Nat
  fieldsExtracted : Nat
  highConfidenceFields : Nat
  extractionRate : Q
  averageConfidence : Q
  extractionMethod : String
  llmFallbackUsed : Bool
  fieldsFound : List String
  recommendedReview : List Recommendation
deriving DecidableEq

/-- `generateExtractionSummary`: note that both `totalFieldsRequested` and
the `extractionRate` denominator are `metadata.rulesStats.totalFields` — the
full registry size — independent of any requested subset. -/
def generateExtractionSummary (extractedFields : FieldMap) (rulesStats : RulesEngine.Stats)
    (extractionMethod : String) (llmFallbackUsed : Bool) : Summary :=
  let fieldsWith := fieldsWithValues extractedFields
  let highConfidence := fieldsWith.filter (fun f =>
    match getField extractedFields f with
    | bestMatch :: _ => decide ((Q.dec 8 1).le bestMatch.confidence)
    | [] => false)
  { totalFieldsRequested := rulesStats.totalFields,
    fieldsExtracted := fieldsWith.length,
    highConfidenceFields := highConfidence.length,
    extractionRate := (Q.ofNat fieldsWith.length).div (Q.ofNat rulesStats.totalFields),
    averageConfidence := calculateAverageConfidence extractedFields,
    extractionMethod := extractionMethod,
    llmFallbackUsed := llmFallbackUsed,
    fieldsFound := fieldsWith,
    recommendedReview := getReviewRecommendations extractedFields }

/-- Result metadata (the fields the claims consult). -/
structure Metadata where
  extractionMethod : String
  llmFallbackUsed : Bool
  llmError : Option String
  rulesStats : RulesEngine.Stats
deriving DecidableEq

/-- The value returned by one `extract` invocation. -/
structure ExtractionResult where
  sessionId : String
  extractedFields : FieldMap
  metadata : Metadata
  summary : Summary
deriving DecidableEq

/-- The fields held after phase 3 (rules extraction, gap detection, gated
fallback with its try/catch), before post-processing.  `llmOutcome` is what
`await this.llmProvider.extractFields(...)` does: `.error` when it throws,
`.ok` with the parsed field map when it returns. -/
def mergeStageFields (st : RulesEngine.State) (text : String) (opts : Options)
    (llmOutcome : Except String FieldMap) : FieldMap :=
  let rulesResults := RulesEngine.extractFields st text opts.specificFields
  let missingFields := identifyMissingFields st rulesResults opts.confidenceThreshold opts.specificFields
  if opts.enableLLMFallback && !missingFields.isEmpty then
    match llmOutcome with
    | .ok llmResults => mergeResults rulesResults llmResults missingFields
    | .error _ => rulesResults
  else rulesResults

/-- `FieldExtractor.extract(processedDocument, options)`: the four phases.
The inner try/catch around the fallback call is the `match` on `llmOutcome`:
a throw leaves the rules results in place, records the message in
`metadata.llmError`, and execution continues normally into post-processing
and the summary (the model is a total function — nothing escapes). -/
def extract (st : RulesEngine.State) (text : String) (opts : Options)
    (llmOutcome : Except String FieldMap) (dateFormat : String → String) :
    ExtractionResult :=
  let rulesResults := RulesEngine.extractFields st text opts.specificFields
  let rulesStats := RulesEngine.getExtractionStats st rulesResults
  let missingFields := identifyMissingFields st rulesResults opts.confidenceThreshold opts.specificFields
  let step3 : FieldMap × String × Bool × Option String :=
    if opts.enableLLMFallback && !missingFields.isEmpty then
      match llmOutcome with
      | .ok llmResults =>
        (mergeResults rulesResults llmResults missingFields, "rules+llm", true, none)
      | .error msg => (rulesResults, "rules", false, some msg)
    else (rulesResults, "rules", false, none)
  let finalFields := postProcess dateFormat step3.1
  { sessionId := opts.sessionId,
    extractedFields := finalFields,
    metadata := { extractionMethod := step3.2.1, llmFallbackUsed := step3.2.2.1,
                  llmError := step3.2.2.2, rulesStats := rulesStats },
    summary := generateExtractionSummary finalFields rulesStats step3.2.1 step3.2.2.1 }

end FieldExtractor

/-- One `extractFields` method invocation viewed as a state transformer on
the engine instance: the method reads `this.rules`/`this.customRules` and
performs no assignment to them, so the instance state is returned
unchanged. -/
def RulesEngine.extractFieldsCall (st : RulesEngine.State) (text : String)
    (specificFields : Option (List String)) : FieldMap × RulesEngine.State :=
  (RulesEngine.extractFields st text specificFields, st)

/-! ## Concrete instances used by witnesses and counterexamples

The host oracles below record the host behaviour on exactly the inputs the
concrete runs touch: on the texts the built-in rules are applied to below
(`"zz"`) none of the built-in regexes has a match, and `JSON.parse` throws
on the non-JSON strings in play (including `""`).  The date oracles are
never consulted in these runs. -/

def exec0 : String → String → List JsMatch := fun _ _ => []

def dp0 : String → Option Int := fun _ => none

def df0 : String → String := fun v => v

def jsonParse0 : String → Option (List (String × Option String)) := fun _ => none

/-- `new RulesEngine()` with the host oracles above. -/
def engineBase : RulesEngine.State := RulesEngine.new exec0 dp0

/-- A custom rule whose (abstract) matcher finds `123-45-6789` at offset 9
of the text `"Customer 123-45-6789"`; priority 1, no validators. -/
def ssnRule : Rule :=
  { patterns := [⟨"ssn", fun _ => [⟨"123-45-6789", some "123-45-6789", 9⟩]⟩],
    validators := [], priority := 1 }

/-- A custom rule whose matcher never matches. -/
def ssnEmptyRule : Rule :=
  { patterns := [⟨"ssn", fun _ => []⟩], validators := [], priority := 1 }


/-! ## Interpretation lemmas: `Q` operations commute with `Q.toRat` -/

theorem Q.den_cast_pos (a : Q) : (0 : ℚ) < (a.den : ℚ) := by exact_mod_cast a.pos

theorem Q.den_cast_ne (a : Q) : ((a.den : ℚ)) ≠ 0 := ne_of_gt a.den_cast_pos

theorem Q.toRat_norm (n : Int) (d : Nat) (h : 0 < d) :
    (Q.norm n d h).toRat = (n : ℚ) / (d : ℚ) := by
  have hg : 0 < n.natAbs.gcd d := Nat.gcd_pos_of_pos_right _ h
  have hdvdn : ((n.natAbs.gcd d : ℤ)) ∣ n := Int.natCast_dvd.mpr (Nat.gcd_dvd_left n.natAbs d)
  have hdvdd : n.natAbs.gcd d ∣ d := Nat.gcd_dvd_right n.natAbs d
  have h1 : ((n / (n.natAbs.gcd d : ℤ) : ℤ) : ℚ) * ((n.natAbs.gcd d : ℕ) : ℚ) = (n : ℚ) := by
    exact_mod_cast congrArg (fun z : ℤ => (z : ℚ)) (Int.ediv_mul_cancel hdvdn)
  have h2 : ((d / n.natAbs.gcd d : ℕ) : ℚ) * ((n.natAbs.gcd d : ℕ) : ℚ) = (d : ℚ) := by
    exact_mod_cast Nat.div_mul_cancel hdvdd
  have hB : ((d / n.natAbs.gcd d : ℕ) : ℚ) ≠ 0 := by
    have hp : 0 < d / n.natAbs.gcd d := Nat.div_pos (Nat.le_of_dvd h hdvdd) hg
    exact_mod_cast hp.ne'
  have hD : ((d : ℚ)) ≠ 0 := by exact_mod_cast h.ne'
  show ((n / (n.natAbs.gcd d : ℤ) : ℤ) : ℚ) / ((d / n.natAbs.gcd d : ℕ) : ℚ) = (n : ℚ) / (d : ℚ)
  rw [div_eq_div_iff hB hD]
  conv_lhs => rw [← h2]
  conv_rhs => rw [← h1]
  ring

theorem Q.toRat_ofNat (n : Nat) : (Q.ofNat n).toRat = n := by
  simp [Q.ofNat, Q.toRat]

theorem Q.toRat_ofInt (z : Int) : (Q.ofInt z).toRat = z := by
  simp [Q.ofInt, Q.toRat]

theorem Q.toRat_dec (m : Int) (e : Nat) : (Q.dec m e).toRat = (m : ℚ) / 10 ^ e := by
  rw [Q.dec, Q.toRat_norm]
  norm_cast

theorem Q.toRat_add (a b : Q) : (a.add b).toRat = a.toRat + b.toRat := by
  rw [Q.add, Q.toRat_norm]
  unfold Q.toRat
  have ha := a.den_cast_ne
  have hb := b.den_cast_ne
  push_cast
  field_simp

theorem Q.toRat_mul (a b : Q) : (a.mul b).toRat = a.toRat * b.toRat := by
  rw [Q.mul, Q.toRat_norm]
  unfold Q.toRat
  push_cast
  rw [div_mul_div_comm]

theorem Q.toRat_neg (a : Q) : a.neg.toRat = -a.toRat := by
  simp [Q.neg, Q.toRat, neg_div]

theorem Q.toRat_div (a b : Q) : (a.div b).toRat = a.toRat / b.toRat := by
  unfold Q.div
  split
  · next hb =>
    rw [Q.toRat_norm]
    unfold Q.toRat
    have ha := a.den_cast_ne
    have hbd := b.den_cast_ne
    have hbq : ((b.num : ℚ)) ≠ 0 := by exact_mod_cast hb.ne'
    have ht : ((b.num.toNat : ℕ) : ℚ) = ((b.num : ℤ) : ℚ) := by
      exact_mod_cast congrArg (fun z : ℤ => (z : ℚ)) (Int.toNat_of_nonneg hb.le)
    push_cast
    rw [ht]
    field_simp
  · split
    · next hb2 =>
      rw [Q.toRat_norm]
      unfold Q.toRat
      have ha := a.den_cast_ne
      have hbd := b.den_cast_ne
      have hbq : ((b.num : ℚ)) ≠ 0 := by
        have : b.num ≠ 0 := by omega
        exact_mod_cast this
      have ht : (((-b.num).toNat : ℕ) : ℚ) = -((b.num : ℤ) : ℚ) := by
        exact_mod_cast congrArg (fun z : ℤ => (z : ℚ))
          (Int.toNat_of_nonneg (by omega : (0:ℤ) ≤ -b.num))
      push_cast
      rw [ht]
      field_simp
    · next hb hb2 =>
      have hz : b.num = 0 := by omega
      simp [Q.toRat, hz]

theorem Q.le_iff (a b : Q) : a.le b ↔ a.toRat ≤ b.toRat := by
  unfold Q.le Q.toRat
  rw [div_le_div_iff₀ a.den_cast_pos b.den_cast_pos]
  constructor <;> intro h <;> exact_mod_cast h

theorem Q.lt_iff (a b : Q) : a.lt b ↔ a.toRat < b.toRat := by
  unfold Q.lt Q.toRat
  rw [div_lt_div_iff₀ a.den_cast_pos b.den_cast_pos]
  constructor <;> intro h <;> exact_mod_cast h

theorem Q.num_eq_zero_iff (a : Q) : a.num = 0 ↔ a.toRat = 0 := by
  unfold Q.toRat
  constructor
  · intro h
    simp [h]
  · intro h
    rcases div_eq_zero_iff.mp h with h1 | h2
    · exact_mod_cast h1
    · exact absurd h2 a.den_cast_ne

theorem toRat_qmin (a b : Q) : (qmin a b).toRat = min a.toRat b.toRat := by
  unfold qmin
  split
  · next h => rw [min_eq_left ((Q.le_iff a b).mp h)]
  · next h =>
    have h2 := (not_iff_not.mpr (Q.le_iff a b)).mp h
    rw [min_eq_right (not_le.mp h2).le]

theorem toRat_qmax (a b : Q) : (qmax a b).toRat = max a.toRat b.toRat := by
  unfold qmax
  split
  · next h => rw [max_eq_right ((Q.le_iff a b).mp h)]
  · next h =>
    have h2 := (not_iff_not.mpr (Q.le_iff a b)).mp h
    rw [max_eq_left (not_le.mp h2).le]

theorem Q.le_of_not_le {a b : Q} (h : ¬ a.le b) : b.le a := by
  rw [Q.le_iff] at h ⊢
  exact (not_le.mp h).le

theorem Q.le_trans {a b c : Q} (h₁ : a.le b) (h₂ : b.le c) : a.le c := by
  rw [Q.le_iff] at h₁ h₂ ⊢
  exact h₁.trans h₂

theorem qmin_le_right (a b : Q) : (qmin a b).le b := by
  rw [Q.le_iff, toRat_qmin]
  exact min_le_right _ _

theorem clamp01_bounds (c : Q) :
    (Q.ofNat 0).le (qmin (qmax c (Q.ofNat 0)) (Q.ofNat 1)) ∧
      (qmin (qmax c (Q.ofNat 0)) (Q.ofNat 1)).le (Q.ofNat 1) := by
  constructor
  · rw [Q.le_iff, toRat_qmin, toRat_qmax, Q.toRat_ofNat, Q.toRat_ofNat]
    exact le_min (le_max_right _ _) (by norm_num)
  · rw [Q.le_iff, toRat_qmin, Q.toRat_ofNat]
    exact min_le_right _ _

/-! ## Sorting lemmas -/

theorem mem_insertDescBy {α : Type} (key : α → Q) (x : α) (l : List α) (c : α) :
    c ∈ insertDescBy key x l ↔ c = x ∨ c ∈ l := by
  induction l with
  | nil => simp [insertDescBy]
  | cons y ys ih =>
    simp only [insertDescBy]
    split
    · simp only [List.mem_cons, ih]
      tauto
    · simp only [List.mem_cons]

theorem insertDescBy_perm {α : Type} (key : α → Q) (x : α) (l : List α) :
    List.Perm (insertDescBy key x l) (x :: l) := by
  induction l with
  | nil => simp [insertDescBy]
  | cons y ys ih =>
    simp only [insertDescBy]
    split
    · exact (ih.cons y).trans (List.Perm.swap x y ys)
    · exact List.Perm.refl _

theorem foldl_insertDescBy_perm {α : Type} (key : α → Q) :
    ∀ (l acc : List α),
      List.Perm (l.foldl (fun a x => insertDescBy key x a) acc) (acc ++ l) := by
  intro l
  induction l with
  | nil => intro acc; simp
  | cons x xs ih =>
    intro acc
    simp only [List.foldl_cons]
    refine (ih (insertDescBy key x acc)).trans ?_
    refine (List.Perm.append_right xs (insertDescBy_perm key x acc)).trans ?_
    exact List.perm_middle.symm

theorem stableSortDesc_perm {α : Type} (key : α → Q) (l : List α) :
    List.Perm (stableSortDesc key l) l := by
  have h := foldl_insertDescBy_perm key l []
  simpa [stableSortDesc] using h

theorem mem_stableSortDesc {α : Type} (key : α → Q) (l : List α) (c : α) :
    c ∈ stableSortDesc key l ↔ c ∈ l :=
  (stableSortDesc_perm key l).mem_iff

/-- Sortedness: non-increasing keys along the list. -/
def SortedDescBy {α : Type} (key : α → Q) (l : List α) : Prop :=
  l.Pairwise (fun a b => (key b).le (key a))

theorem insertDescBy_sorted {α : Type} (key : α → Q) (x : α) (l : List α)
    (h : SortedDescBy key l) : SortedDescBy key (insertDescBy key x l) := by
  induction l with
  | nil => simp [insertDescBy, SortedDescBy]
  | cons y ys ih =>
    rcases List.pairwise_cons.mp h with ⟨hy, hys⟩
    simp only [insertDescBy]
    split
    · next hle =>
      refine List.Pairwise.cons ?_ (ih hys)
      intro b hb
      rcases (mem_insertDescBy key x ys b).mp hb with rfl | hb
      · exact hle
      · exact hy b hb
    · next hle =>
      refine List.Pairwise.cons ?_ h
      intro b hb
      rcases List.mem_cons.mp hb with rfl | hb
      · exact Q.le_of_not_le hle
      · exact Q.le_trans (hy b hb) (Q.le_of_not_le hle)

theorem foldl_insertDescBy_sorted {α : Type} (key : α → Q) :
    ∀ (l acc : List α), SortedDescBy key acc →
      SortedDescBy key (l.foldl (fun a x => insertDescBy key x a) acc) := by
  intro l
  induction l with
  | nil => intro acc h; simpa using h
  | cons x xs ih =>
    intro acc h
    simp only [List.foldl_cons]
    exact ih _ (insertDescBy_sorted key x acc h)

theorem stableSortDesc_sorted {α : Type} (key : α → Q) (l : List α) :
    SortedDescBy key (stableSortDesc key l) :=
  foldl_insertDescBy_sorted key l [] List.Pairwise.nil

/-! ## Association-list lemmas -/

theorem alookup_aset {α : Type} (m : List (String × α)) (k f : String) (v : α) :
    alookup (aset m k v) f = if k = f then some v else alookup m f := by
  induction m with
  | nil => simp [aset, alookup]
  | cons p rest ih =>
    obtain ⟨k₀, v₀⟩ := p
    simp only [aset]
    by_cases h₀ : k₀ = k
    · subst h₀
      by_cases h₁ : k₀ = f <;> simp [alookup, h₁]
    · rw [if_neg h₀]
      by_cases h₁ : k₀ = f
      · subst h₁
        have hkf : ¬ k = k₀ := fun hh => h₀ hh.symm
        simp [alookup, hkf]
      · simp [alookup, h₁, ih]

theorem mem_aset {α : Type} (m : List (String × α)) (k : String) (v : α) (p : String × α)
    (h : p ∈ aset m k v) : p = (k, v) ∨ p ∈ m := by
  induction m with
  | nil => simpa [aset] using h
  | cons q rest ih =>
    obtain ⟨k₀, v₀⟩ := q
    simp only [aset] at h
    by_cases h₀ : k₀ = k
    · rw [if_pos h₀] at h
      subst h₀
      rcases List.mem_cons.mp h with rfl | hm
      · left; rfl
      · right; exact List.mem_cons_of_mem _ hm
    · rw [if_neg h₀] at h
      rcases List.mem_cons.mp h with rfl | hm
      · right; exact List.mem_cons_self _ _
      · rcases ih hm with h1 | h2
        · left; exact h1
        · right; exact List.mem_cons_of_mem _ h2

theorem mem_aset_of_ne {α : Type} (m : List (String × α)) (k : String) (v : α)
    (p : String × α) (hp : p ∈ m) (hne : p.1 ≠ k) : p ∈ aset m k v := by
  induction m with
  | nil => cases hp
  | cons q rest ih =>
    obtain ⟨k₀, v₀⟩ := q
    simp only [aset]
    by_cases h₀ : k₀ = k
    · rw [if_pos h₀]
      rcases List.mem_cons.mp hp with rfl | hm
      · exact absurd h₀ hne
      · exact List.mem_cons_of_mem _ hm
    · rw [if_neg h₀]
      rcases List.mem_cons.mp hp with rfl | hm
      · exact List.mem_cons_self _ _
      · exact List.mem_cons_of_mem _ (ih hm)

theorem mem_aset_self {α : Type} (m : List (String × α)) (k : String) (v : α) :
    (k, v) ∈ aset m k v := by
  induction m with
  | nil => simp [aset]
  | cons q rest ih =>
    obtain ⟨k₀, v₀⟩ := q
    simp only [aset]
    by_cases h₀ : k₀ = k
    · rw [if_pos h₀]
      subst h₀
      exact List.mem_cons_self _ _
    · rw [if_neg h₀]
      exact List.mem_cons_of_mem _ ih

theorem aset_map_fst_of_found {α : Type} (m : List (String × α)) (k : String) (v : α)
    (h : (alookup m k).isSome) : (aset m k v).map Prod.fst = m.map Prod.fst := by
  induction m with
  | nil => simp [alookup] at h
  | cons q rest ih =>
    obtain ⟨k₀, v₀⟩ := q
    simp only [aset]
    by_cases h₀ : k₀ = k
    · rw [if_pos h₀]
      simp
    · rw [if_neg h₀]
      simp only [alookup, if_neg h₀] at h
      simp [ih h]

theorem alookup_eq_none {α : Type} (m : List (String × α)) (k : String)
    (h : alookup m k = none) : ∀ p ∈ m, p.1 ≠ k := by
  induction m with
  | nil => intro p hp; cases hp
  | cons q rest ih =>
    obtain ⟨k₀, v₀⟩ := q
    intro p hp
    simp only [alookup] at h
    by_cases h₀ : k₀ = k
    · rw [if_pos h₀] at h
      cases h
    · rw [if_neg h₀] at h
      rcases List.mem_cons.mp hp with rfl | hm
      · exact h₀
      · exact ih h p hm

theorem alookup_mem {α : Type} (m : List (String × α)) (k : String) (v : α)
    (h : alookup m k = some v) : (k, v) ∈ m := by
  induction m with
  | nil => simp [alookup] at h
  | cons q rest ih =>
    obtain ⟨k₀, v₀⟩ := q
    simp only [alookup] at h
    by_cases h₀ : k₀ = k
    · rw [if_pos h₀] at h
      subst h₀
      obtain rfl : v₀ = v := Option.some.inj h
      exact List.mem_cons_self _ _
    · rw [if_neg h₀] at h
      exact List.mem_cons_of_mem _ (ih h)

theorem nodup_key_val_unique {α : Type} (m : List (String × α))
    (hnd : (m.map Prod.fst).Nodup) (k : String) (a b : α)
    (ha : (k, a) ∈ m) (hb : (k, b) ∈ m) : a = b := by
  induction m with
  | nil => cases ha
  | cons q rest ih =>
    obtain ⟨k₀, v₀⟩ := q
    simp only [List.map_cons, List.nodup_cons] at hnd
    rcases List.mem_cons.mp ha with h1 | h1 <;> rcases List.mem_cons.mp hb with h2 | h2
    · cases h1
      injection h2 with hk hv
      exact hv.symm
    · exfalso
      cases h1
      exact hnd.1 (List.mem_map_of_mem Prod.fst h2)
    · exfalso
      cases h2
      exact hnd.1 (List.mem_map_of_mem Prod.fst h1)
    · exact ih hnd.2 h1 h2

theorem getField_eq_nil_or_mem (m : FieldMap) (f : String) :
    getField m f = [] ∨ (f, getField m f) ∈ m := by
  unfold getField
  cases h : alookup m f with
  | none => left; rfl
  | some l => right; simpa using alookup_mem m f l h

theorem getField_aset (m : FieldMap) (k f : String) (v : List Candidate) :
    getField (aset m k v) f = if k = f then v else getField m f := by
  unfold getField
  rw [alookup_aset]
  split <;> rfl

/-! ## Deduplication lemmas -/

theorem Q.le_refl (a : Q) : a.le a := by
  rw [Q.le_iff]

theorem Q.le_of_lt {a b : Q} (h : a.lt b) : a.le b := by
  rw [Q.lt_iff] at h
  rw [Q.le_iff]
  exact h.le

theorem Q.le_of_not_lt {a b : Q} (h : ¬ a.lt b) : b.le a := by
  rw [Q.lt_iff] at h
  rw [Q.le_iff]
  exact not_lt.mp h

theorem dedupStep_keysOk (acc : List (String × Candidate)) (m : Candidate)
    (h : ∀ p ∈ acc, p.1 = jsToLower p.2.value) :
    ∀ p ∈ RulesEngine.dedupStep acc m, p.1 = jsToLower p.2.value := by
  intro p hp
  simp only [RulesEngine.dedupStep] at hp
  split at hp
  · rcases List.mem_append.mp hp with hm | hm
    · exact h p hm
    · rcases List.mem_singleton.mp hm with rfl
      rfl
  · split at hp
    · rcases mem_aset _ _ _ _ hp with rfl | hm
      · rfl
      · exact h p hm
    · exact h p hp

theorem dedupStep_nodup (acc : List (String × Candidate)) (m : Candidate)
    (h : (acc.map Prod.fst).Nodup) :
    (((RulesEngine.dedupStep acc m).map Prod.fst)).Nodup := by
  simp only [RulesEngine.dedupStep]
  split
  · next hl =>
    rw [List.map_append]
    refine List.Nodup.append h (List.nodup_singleton _) ?_
    intro a ha hb
    obtain ⟨p, hp, rfl⟩ := List.mem_map.mp ha
    rcases List.mem_singleton.mp hb with h2
    exact alookup_eq_none acc _ hl p hp h2
  · next c hl =>
    split
    · rw [aset_map_fst_of_found _ _ _ (by rw [hl]; rfl)]
      exact h
    · exact h

theorem dedupStep_val_src (acc : List (String × Candidate)) (m : Candidate)
    (p : String × Candidate) (hp : p ∈ RulesEngine.dedupStep acc m) :
    p ∈ acc ∨ p.2 = m := by
  simp only [RulesEngine.dedupStep] at hp
  split at hp
  · rcases List.mem_append.mp hp with hm | hm
    · left; exact hm
    · right
      rcases List.mem_singleton.mp hm with rfl
      rfl
  · split at hp
    · rcases mem_aset _ _ _ _ hp with rfl | hm
      · right; rfl
      · left; exact hm
    · left; exact hp

theorem dedupStep_survive (acc : List (String × Candidate)) (m : Candidate)
    (hnd : (acc.map Prod.fst).Nodup) (p : String × Candidate) (hp : p ∈ acc) :
    ∃ q ∈ RulesEngine.dedupStep acc m, q.1 = p.1 ∧ p.2.confidence.le q.2.confidence := by
  simp only [RulesEngine.dedupStep]
  split
  · exact ⟨p, List.mem_append_left _ hp, rfl, Q.le_refl _⟩
  · next c hl =>
    split
    · next hlt =>
      by_cases hpk : p.1 = jsToLower m.value
      · have hc : (jsToLower m.value, c) ∈ acc := alookup_mem _ _ _ hl
        have hpm : (p.1, p.2) ∈ acc := by simpa using hp
        rw [hpk] at hpm
        have hpc : p.2 = c := nodup_key_val_unique acc hnd _ _ _ hpm hc
        refine ⟨(jsToLower m.value, m), mem_aset_self _ _ _, hpk.symm, ?_⟩
        rw [hpc]
        exact Q.le_of_lt hlt
      · exact ⟨p, mem_aset_of_ne _ _ _ _ hp hpk, rfl, Q.le_refl _⟩
    · exact ⟨p, hp, rfl, Q.le_refl _⟩

theorem dedupStep_new (acc : List (String × Candidate)) (m : Candidate) :
    ∃ q ∈ RulesEngine.dedupStep acc m,
      q.1 = jsToLower m.value ∧ m.confidence.le q.2.confidence := by
  simp only [RulesEngine.dedupStep]
  split
  · exact ⟨(jsToLower m.value, m),
      List.mem_append_right _ (List.mem_singleton_self _), rfl, Q.le_refl _⟩
  · next c hl =>
    split
    · exact ⟨(jsToLower m.value, m), mem_aset_self _ _ _, rfl, Q.le_refl _⟩
    · next hlt => exact ⟨(jsToLower m.value, c), alookup_mem _ _ _ hl, rfl, Q.le_of_not_lt hlt⟩

theorem dedupFold_spec (ms : List Candidate) :
    ∀ acc : List (String × Candidate),
      (∀ p ∈ acc, p.1 = jsToLower p.2.value) →
      ((acc.map Prod.fst).Nodup) →
      (∀ p ∈ ms.foldl RulesEngine.dedupStep acc, p.1 = jsToLower p.2.value) ∧
      (((ms.foldl RulesEngine.dedupStep acc).map Prod.fst).Nodup) ∧
      (∀ p ∈ ms.foldl RulesEngine.dedupStep acc,
        p.2 ∈ acc.map (fun q => q.2) ∨ p.2 ∈ ms) ∧
      (∀ p ∈ acc, ∃ q ∈ ms.foldl RulesEngine.dedupStep acc,
        q.1 = p.1 ∧ p.2.confidence.le q.2.confidence) ∧
      (∀ m ∈ ms, ∃ q ∈ ms.foldl RulesEngine.dedupStep acc,
        q.1 = jsToLower m.value ∧ m.confidence.le q.2.confidence) := by
  induction ms with
  | nil =>
    intro acc hok hnd
    refine ⟨hok, hnd, ?_, ?_, ?_⟩
    · intro p hp
      left
      exact List.mem_map_of_mem _ hp
    · intro p hp
      exact ⟨p, hp, rfl, Q.le_refl _⟩
    · intro m hm
      cases hm
  | cons m₀ ms ih =>
    intro acc hok hnd
    simp only [List.foldl_cons]
    have hok1 := dedupStep_keysOk acc m₀ hok
    have hnd1 := dedupStep_nodup acc m₀ hnd
    obtain ⟨c1, c2, c3, c4, c5⟩ := ih (RulesEngine.dedupStep acc m₀) hok1 hnd1
    refine ⟨c1, c2, ?_, ?_, ?_⟩
    · intro p hp
      rcases c3 p hp with h1 | h1
      · obtain ⟨q, hq, hq2⟩ := List.mem_map.mp h1
        rcases dedupStep_val_src acc m₀ q hq with h2 | h2
        · left
          rw [← hq2]
          exact List.mem_map_of_mem _ h2
        · right
          rw [← hq2, h2]
          exact List.mem_cons_self _ _
      · right
        exact List.mem_cons_of_mem _ h1
    · intro p hp
      obtain ⟨q1, hq1, hk1, hc1⟩ := dedupStep_survive acc m₀ hnd p hp
      obtain ⟨q2, hq2, hk2, hc2⟩ := c4 q1 hq1
      exact ⟨q2, hq2, hk2.trans hk1, Q.le_trans hc1 hc2⟩
    · intro m hm
      rcases List.mem_cons.mp hm with rfl | hm
      · obtain ⟨q1, hq1, hk1, hc1⟩ := dedupStep_new acc m
        obtain ⟨q2, hq2, hk2, hc2⟩ := c4 q1 hq1
        exact ⟨q2, hq2, hk2.trans hk1, Q.le_trans hc1 hc2⟩
      · exact c5 m hm

theorem removeDuplicates_pairwise (ms : List Candidate) :
    (RulesEngine.removeDuplicates ms).Pairwise
      (fun a b => jsToLower a.value ≠ jsToLower b.value) := by
  unfold RulesEngine.removeDuplicates
  refine List.Pairwise.perm ?_ (stableSortDesc_perm (fun c => c.confidence) _).symm
    (fun h => Ne.symm h)
  obtain ⟨hok, hnd, -, -, -⟩ := dedupFold_spec ms [] (by simp) (by simp)
  rw [List.pairwise_map]
  have h2 : (ms.foldl RulesEngine.dedupStep []).Pairwise (fun p q => p.1 ≠ q.1) :=
    List.pairwise_map.mp hnd
  exact h2.imp_of_mem (fun hp hq hne => by
    rw [hok _ hp, hok _ hq] at hne
    exact hne)

theorem removeDuplicates_keeps (ms : List Candidate) (m : Candidate) (hm : m ∈ ms) :
    ∃ c ∈ RulesEngine.removeDuplicates ms,
      jsToLower c.value = jsToLower m.value ∧ m.confidence.le c.confidence := by
  obtain ⟨hok, -, -, -, hnew⟩ := dedupFold_spec ms [] (by simp) (by simp)
  obtain ⟨q, hq, hk, hc⟩ := hnew m hm
  refine ⟨q.2, ?_, ?_, hc⟩
  · unfold RulesEngine.removeDuplicates
    rw [mem_stableSortDesc]
    exact List.mem_map_of_mem _ hq
  · rw [← hok q hq]
    exact hk

theorem removeDuplicates_subset (ms : List Candidate) (c : Candidate)
    (hc : c ∈ RulesEngine.removeDuplicates ms) : c ∈ ms := by
  unfold RulesEngine.removeDuplicates at hc
  rw [mem_stableSortDesc] at hc
  obtain ⟨q, hq, rfl⟩ := List.mem_map.mp hc
  obtain ⟨-, -, hsrc, -, -⟩ := dedupFold_spec ms [] (by simp) (by simp)
  rcases hsrc q hq with h1 | h1
  · simp at h1
  · exact h1

theorem removeDuplicates_sorted (ms : List Candidate) :
    SortedDescBy (fun c => c.confidence) (RulesEngine.removeDuplicates ms) := by
  unfold RulesEngine.removeDuplicates
  exact stableSortDesc_sorted _ _

/-! ## Rules-stage structure lemmas -/

theorem calculateConfidence_le_one (text : String) (m : JsMatch) (p : Pattern) (rule : Rule) :
    (RulesEngine.calculateConfidence text m p rule).le (Q.ofNat 1) := by
  unfold RulesEngine.calculateConfidence
  exact qmin_le_right _ _

theorem mem_foldl_append {α β : Type} (g : β → List α) :
    ∀ (l : List β) (acc : List α) (c : α),
      c ∈ l.foldl (fun a p => a ++ g p) acc → c ∈ acc ∨ ∃ p ∈ l, c ∈ g p := by
  intro l
  induction l with
  | nil =>
    intro acc c h
    left
    exact h
  | cons x xs ih =>
    intro acc c h
    simp only [List.foldl_cons] at h
    rcases ih (acc ++ g x) c h with h1 | h1
    · rcases List.mem_append.mp h1 with h2 | h2
      · left; exact h2
      · right; exact ⟨x, List.mem_cons_self _ _, h2⟩
    · obtain ⟨p, hp, hc⟩ := h1
      right
      exact ⟨p, List.mem_cons_of_mem _ hp, hc⟩

theorem mem_extractField_conf (text : String) (rule : Rule) (f : String) (c : Candidate)
    (hc : c ∈ RulesEngine.extractField text rule f) :
    ∃ m p, c.confidence = RulesEngine.calculateConfidence text m p rule := by
  unfold RulesEngine.extractField at hc
  rw [mem_stableSortDesc] at hc
  rcases mem_foldl_append
    (fun p => (p.matchAll text).filterMap (fun m =>
      let value := match m.captured with
        | some s => if s = "" then m.full else s
        | none => m.full
      match RulesEngine.cleanValue value f with
      | none => none
      | some cv =>
        if cv ≠ "" ∧ RulesEngine.validateValue cv rule.validators then
          some { value := cv,
                 confidence := RulesEngine.calculateConfidence text m p rule,
                 position := some m.index,
                 context := some (RulesEngine.extractContext text m.index 50),
                 source := none }
        else none))
    rule.patterns [] c hc with h1 | h1
  · cases h1
  · obtain ⟨p, hp, hcp⟩ := h1
    obtain ⟨m, hm, hbody⟩ := List.mem_filterMap.mp hcp
    dsimp only at hbody
    split at hbody
    · cases hbody
    · split at hbody
      · obtain rfl := Option.some.inj hbody
        exact ⟨m, p, rfl⟩
      · cases hbody

theorem mem_rankAndClean (results : FieldMap) (f : String) (l : List Candidate)
    (h : (f, l) ∈ RulesEngine.rankAndCleanResults results) :
    ∃ ms, (f, ms) ∈ results ∧ l = (RulesEngine.removeDuplicates ms).take 5 := by
  unfold RulesEngine.rankAndCleanResults at h
  obtain ⟨p, hp, heq⟩ := List.mem_filterMap.mp h
  split at heq
  · cases heq
  · obtain ⟨h1, h2⟩ := Prod.mk.injEq .. ▸ Option.some.inj heq
    exact ⟨p.2, by rw [← h1]; simpa using hp, h2.symm⟩

theorem mem_rulesFold (text : String) :
    ∀ (rules : List (String × Rule)) (acc : FieldMap) (p : String × List Candidate),
      p ∈ rules.foldl
        (fun acc (q : String × Rule) => aset acc q.1 (RulesEngine.extractField text q.2 q.1)) acc →
      p ∈ acc ∨ ∃ q : String × Rule, p.2 = RulesEngine.extractField text q.2 q.1 := by
  intro rules
  induction rules with
  | nil =>
    intro acc p h
    left
    exact h
  | cons r rs ih =>
    intro acc p h
    simp only [List.foldl_cons] at h
    rcases ih _ p h with h1 | h1
    · rcases mem_aset _ _ _ _ h1 with rfl | h2
      · right; exact ⟨r, rfl⟩
      · left; exact h2
    · right; exact h1

theorem mem_customFold (text : String) (cond : String → Bool) :
    ∀ (rules : List (String × Rule)) (acc : FieldMap) (p : String × List Candidate),
      p ∈ rules.foldl
        (fun acc (q : String × Rule) =>
          if cond q.1 then aset acc q.1 (RulesEngine.extractField text q.2 q.1) else acc) acc →
      p ∈ acc ∨ ∃ q : String × Rule, p.2 = RulesEngine.extractField text q.2 q.1 := by
  intro rules
  induction rules with
  | nil =>
    intro acc p h
    left
    exact h
  | cons r rs ih =>
    intro acc p h
    simp only [List.foldl_cons] at h
    rcases ih _ p h with h1 | h1
    · by_cases hc : cond r.1
      · rw [if_pos hc] at h1
        rcases mem_aset _ _ _ _ h1 with rfl | h2
        · right; exact ⟨r, rfl⟩
        · left; exact h2
      · rw [if_neg hc] at h1
        left
        exact h1
    · right; exact h1

theorem extractFields_value_shape (st : RulesEngine.State) (text : String)
    (subset : Option (List String)) (f : String) (l : List Candidate)
    (h : (f, l) ∈ RulesEngine.extractFields st text subset) :
    ∃ ms fname rule, (ms = RulesEngine.extractField text rule fname) ∧
      l = (RulesEngine.removeDuplicates ms).take 5 := by
  unfold RulesEngine.extractFields at h
  obtain ⟨ms, hms, hl⟩ := mem_rankAndClean _ f l h
  rcases mem_customFold text (RulesEngine.subsetAllows subset) st.customRules _ _ hms
    with h1 | h1
  · rcases mem_rulesFold text _ _ _ h1 with h2 | h2
    · cases h2
    · obtain ⟨q, hq⟩ := h2
      exact ⟨ms, q.1, q.2, hq, hl⟩
  · obtain ⟨q, hq⟩ := h1
    exact ⟨ms, q.1, q.2, hq, hl⟩

theorem getField_extractFields_sorted (st : RulesEngine.State) (text : String)
    (subset : Option (List String)) (f : String) :
    SortedDescBy (fun c => c.confidence)
      (getField (RulesEngine.extractFields st text subset) f) := by
  rcases getField_eq_nil_or_mem (RulesEngine.extractFields st text subset) f with h | h
  · rw [h]
    exact List.Pairwise.nil
  · obtain ⟨ms, _, _, _, hl⟩ := extractFields_value_shape st text subset f _ h
    rw [hl]
    exact List.Pairwise.sublist (List.take_sublist _ _) (removeDuplicates_sorted ms)

theorem getField_extractFields_conf_le_one (st : RulesEngine.State) (text : String)
    (subset : Option (List String)) (f : String) (c : Candidate)
    (hc : c ∈ getField (RulesEngine.extractFields st text subset) f) :
    c.confidence.le (Q.ofNat 1) := by
  rcases getField_eq_nil_or_mem (RulesEngine.extractFields st text subset) f with h | h
  · rw [h] at hc
    cases hc
  · obtain ⟨ms, fname, rule, hms, hl⟩ := extractFields_value_shape st text subset f _ h
    rw [hl] at hc
    have hc2 : c ∈ RulesEngine.removeDuplicates ms := List.take_subset _ _ hc
    have hc3 : c ∈ ms := removeDuplicates_subset ms c hc2
    rw [hms] at hc3
    obtain ⟨m, p, hconf⟩ := mem_extractField_conf text rule fname c hc3
    rw [hconf]
    exact calculateConfidence_le_one text m p rule

/-! ## Gap-detection and merge lemmas -/

theorem mem_identifyMissingFields_spec (st : RulesEngine.State) (rr : FieldMap)
    (thr : Q) (subset : Option (List String)) (f : String)
    (hf : f ∈ FieldExtractor.identifyMissingFields st rr thr subset) :
    getField rr f = [] ∨
      ∃ best rest, getField rr f = best :: rest ∧ best.confidence.lt thr := by
  unfold FieldExtractor.identifyMissingFields at hf
  obtain ⟨hmem, hpred⟩ := List.mem_filter.mp hf
  cases h : getField rr f with
  | nil =>
    left
    rfl
  | cons best rest =>
    right
    refine ⟨best, rest, rfl, ?_⟩
    rw [h] at hpred
    simpa using hpred

theorem identifyMissing_subset_complete (st : RulesEngine.State) (rr : FieldMap)
    (thr : Q) (fs : List String) (f : String) (hf : f ∈ fs)
    (he : getField rr f = []) :
    f ∈ FieldExtractor.identifyMissingFields st rr thr (some fs) := by
  unfold FieldExtractor.identifyMissingFields
  refine List.mem_filter.mpr ⟨hf, ?_⟩
  rw [he]

theorem identifyMissing_builtin_complete (st : RulesEngine.State) (rr : FieldMap)
    (thr : Q) (f : String) (hf : f ∈ st.rules.map (fun p => p.1))
    (he : getField rr f = []) :
    f ∈ FieldExtractor.identifyMissingFields st rr thr none := by
  unfold FieldExtractor.identifyMissingFields
  refine List.mem_filter.mpr ⟨hf, ?_⟩
  rw [he]

theorem getField_mergeFold_not_mem (llm : FieldMap) :
    ∀ (missing : List String) (acc : FieldMap) (f : String), f ∉ missing →
      getField (missing.foldl (FieldExtractor.mergeStep llm) acc) f = getField acc f := by
  intro missing
  induction missing with
  | nil =>
    intro acc f _
    rfl
  | cons m₀ rest ih =>
    intro acc f hf
    simp only [List.foldl_cons]
    have hne : f ∉ rest := fun hh => hf (List.mem_cons_of_mem _ hh)
    have hm₀ : m₀ ≠ f := fun hh => hf (hh ▸ List.mem_cons_self _ _)
    rw [ih _ f hne]
    simp only [FieldExtractor.mergeStep]
    split
    · rw [getField_aset, if_neg hm₀]
    · rfl

theorem getField_mergeResults_not_mem (rr llm : FieldMap) (missing : List String)
    (f : String) (hf : f ∉ missing) :
    getField (FieldExtractor.mergeResults rr llm missing) f = getField rr f := by
  unfold FieldExtractor.mergeResults
  exact getField_mergeFold_not_mem llm missing rr f hf

/-! ## Post-processing and review lemmas -/

theorem mem_postProcess_conf (df : String → String) (fields : FieldMap) (f : String)
    (c : Candidate) (hc : c ∈ getField (FieldExtractor.postProcess df fields) f) :
    (Q.ofNat 0).le c.confidence ∧ c.confidence.le (Q.ofNat 1) := by
  rcases getField_eq_nil_or_mem (FieldExtractor.postProcess df fields) f with h | h
  · rw [h] at hc
    cases hc
  · unfold FieldExtractor.postProcess at h hc
    obtain ⟨p, hp, heq⟩ := List.mem_filterMap.mp h
    split at heq
    · cases heq
    · obtain ⟨h1, h2⟩ := Prod.mk.injEq .. ▸ Option.some.inj heq
      rw [← h2] at hc
      obtain ⟨x, hx, rfl⟩ := List.mem_map.mp hc
      exact clamp01_bounds x.confidence

theorem postProcess_no_empty (df : String → String) (fields : FieldMap)
    (p : String × List Candidate) (hp : p ∈ FieldExtractor.postProcess df fields) :
    p.2 ≠ [] := by
  unfold FieldExtractor.postProcess at hp
  obtain ⟨q, hq, heq⟩ := List.mem_filterMap.mp hp
  split at heq
  · cases heq
  · next hne =>
    obtain rfl := Option.some.inj heq
    intro hcontra
    simp only [List.map_eq_nil_iff] at hcontra
    rw [hcontra] at hne
    simp at hne

theorem recOf_severity (f : String) (ms : List Candidate) (r : FieldExtractor.Recommendation)
    (h : FieldExtractor.recOf f ms = some r) :
    (ms = [] ∧ r.severity = "high") ∨ r.severity = "medium" ∨ r.severity = "low" := by
  unfold FieldExtractor.recOf at h
  cases ms with
  | nil =>
    left
    obtain rfl := Option.some.inj h
    exact ⟨rfl, rfl⟩
  | cons best rest =>
    right
    dsimp only at h
    split at h
    · obtain rfl := Option.some.inj h
      left
      rfl
    · cases rest with
      | nil => cases h
      | cons second tail =>
        dsimp only at h
        split at h
        · obtain rfl := Option.some.inj h
          right
          rfl
        · cases h

theorem review_no_high (m : FieldMap) (hm : ∀ p ∈ m, p.2 ≠ [])
    (r : FieldExtractor.Recommendation)
    (hr : r ∈ FieldExtractor.getReviewRecommendations m) : r.severity ≠ "high" := by
  unfold FieldExtractor.getReviewRecommendations at hr
  rw [mem_stableSortDesc] at hr
  obtain ⟨p, hp, heq⟩ := List.mem_filterMap.mp hr
  rcases recOf_severity p.1 p.2 r heq with ⟨hnil, -⟩ | hmed | hlow
  · exact absurd hnil (hm p hp)
  · rw [hmed]
    decide
  · rw [hlow]
    decide

theorem extract_extractedFields_shape (st : RulesEngine.State) (text : String)
    (opts : FieldExtractor.Options) (outcome : Except String FieldMap)
    (df : String → String) :
    ∃ fields, (FieldExtractor.extract st text opts outcome df).extractedFields =
      FieldExtractor.postProcess df fields :=
  ⟨_, rfl⟩

/-! ## Concrete engines and data for the claims -/

def engineSsn : RulesEngine.State := RulesEngine.addCustomRule engineBase "ssn" ssnRule

def engineSsnEmpty : RulesEngine.State := RulesEngine.addCustomRule engineBase "ssn" ssnEmptyRule

/-- The candidate the `ssnRule` run produces (confidence 0.95 = 0.5 + 9·0.05). -/
def ssnCand : Candidate :=
  { value := "123-45-6789", confidence := Q.dec 95 2, position := some 9,
    context := some "Customer 123-45-6789", source := none }

/-! ## Claim C10 -/

/-- Claim C10: as wired, the pre-flight cost check of the fallback path can
never deny.  `LLMProvider.extractFields` calls `canMakeRequest` without a
daily-cap argument; the per-request branch compares the per-request cap
against itself; so for every ledger state, session and configured cap the
check returns `allowed = true`, and the `Cost limit exceeded` degrade
branch is unreachable (the gate always passes the backend outcome
through). -/
theorem C10_cost_gate_never_denies (st : CostState) (today sessionId : String)
    (maxCostPerRequest : Q) (backendOutcome : Except String FieldMap) :
    (CostTracker.canMakeRequest st today sessionId maxCostPerRequest none).allowed = true ∧
    LLMProvider.extractFieldsGate st today sessionId maxCostPerRequest backendOutcome =
      backendOutcome := by
  have h : (CostTracker.canMakeRequest st today sessionId maxCostPerRequest none).allowed
      = true := by
    unfold CostTracker.canMakeRequest
    have h1 : ¬ (maxCostPerRequest.num ≠ 0 ∧ (Q.ofNat 0).lt maxCostPerRequest ∧
        maxCostPerRequest.lt maxCostPerRequest) := by
      rintro ⟨-, -, hlt⟩
      rw [Q.lt_iff] at hlt
      exact lt_irrefl _ hlt
    rw [if_neg h1]
    rfl
  refine ⟨h, ?_⟩
  unfold LLMProvider.extractFieldsGate
  simp only [h, if_true]

/-! ## Claim C1 -/

/-- Ledger whose daily total sits exactly at 10. -/
def stC1 : CostState := ⟨[], [("2024-06-01", Q.ofNat 10)]⟩

/-- Claim C1 counterexample: with the day's total exactly at the configured
cap of 10, a call with `maxPerRequest = 0` is still allowed — the code
denies only when `dailyTotal + maxPerRequest` strictly exceeds the cap, so
"every subsequent call, for every maxPerRequest, returns allowed=false"
fails at `maxPerRequest = 0`. -/
theorem C1_counterexample :
    dailyTotalOf stC1 "2024-06-01" = Q.ofNat 10 ∧
    (Q.ofNat 10).le (dailyTotalOf stC1 "2024-06-01") ∧
    (CostTracker.canMakeRequest stC1 "2024-06-01" "session" (Q.ofNat 0)
      (some (Q.ofNat 10))).allowed = true := by
  decide

/-- Claim C1 (amended): once the day's total has reached a positive
configured daily cap, every subsequent call that day with strictly positive
`maxPerRequest` returns `allowed = false`, for every session id. -/
theorem C1_daily_cap_blocks (st : CostState) (today sessionId : String) (mpr cap : Q)
    (hcap : (Q.ofNat 0).lt cap) (hreached : cap.le (dailyTotalOf st today))
    (hmpr : (Q.ofNat 0).lt mpr) :
    (CostTracker.canMakeRequest st today sessionId mpr (some cap)).allowed = false := by
  unfold CostTracker.canMakeRequest
  have h1 : ¬ (mpr.num ≠ 0 ∧ (Q.ofNat 0).lt mpr ∧ mpr.lt mpr) := by
    rintro ⟨-, -, hlt⟩
    rw [Q.lt_iff] at hlt
    exact lt_irrefl _ hlt
  rw [if_neg h1]
  have h2 : (decide (cap.num ≠ 0) &&
      decide (cap.lt ((dailyTotalOf st today).add mpr))) = true := by
    rw [Bool.and_eq_true, decide_eq_true_iff, decide_eq_true_iff]
    rw [Q.lt_iff, Q.toRat_ofNat] at hcap hmpr
    push_cast at hcap hmpr
    constructor
    · intro hz
      rw [Q.num_eq_zero_iff] at hz
      rw [hz] at hcap
      exact lt_irrefl _ hcap
    · rw [Q.lt_iff, Q.toRat_add]
      rw [Q.le_iff] at hreached
      linarith
  dsimp only
  rw [if_pos h2]

/-- Ledger whose daily total (12) exceeds the cap (10) used in the witness. -/
def stC1w : CostState := ⟨[], [("2024-06-01", Q.ofNat 12)]⟩

/-- Witness for C1 (amended) at a concrete ledger. -/
theorem C1_daily_cap_blocks_witness :
    (Q.ofNat 0).lt (Q.ofNat 10) ∧
    (Q.ofNat 10).le (dailyTotalOf stC1w "2024-06-01") ∧
    (Q.ofNat 0).lt (Q.ofNat 1) ∧
    (CostTracker.canMakeRequest stC1w "2024-06-01" "session" (Q.ofNat 1)
      (some (Q.ofNat 10))).allowed = false :=
  ⟨by decide, by decide, by decide,
    C1_daily_cap_blocks stC1w "2024-06-01" "session" (Q.ofNat 1) (Q.ofNat 10)
      (by decide) (by decide) (by decide)⟩

/-! ## Claim C2 -/

/-- Claim C2: for every engine state, text, threshold, subset and fallback
outcome (merged results, failure, or no fallback), every rules-stage
candidate whose confidence is at or above the threshold is still present in
the fields held after the merge step — the merge never drops a rules
candidate already at/above the threshold. -/
theorem C2_merge_keeps_confident (st : RulesEngine.State) (text sessionId : String)
    (enable : Bool) (thr : Q) (mx : Option Q) (subset : Option (List String))
    (outcome : Except String FieldMap) (f : String) (c : Candidate)
    (hc : c ∈ getField (RulesEngine.extractFields st text subset) f)
    (hthr : thr.le c.confidence) :
    c ∈ getField (FieldExtractor.mergeStageFields st text
      ⟨sessionId, enable, thr, mx, subset⟩ outcome) f := by
  unfold FieldExtractor.mergeStageFields
  dsimp only
  split
  · cases outcome with
    | error e => exact hc
    | ok llm =>
      by_cases hf : f ∈ FieldExtractor.identifyMissingFields st
        (RulesEngine.extractFields st text subset) thr subset
      · exfalso
        rcases mem_identifyMissingFields_spec st _ thr subset f hf with h | ⟨best, rest, hbr, hlt⟩
        · rw [h] at hc
          cases hc
        · have hsort := getField_extractFields_sorted st text subset f
          rw [hbr] at hc hsort
          have hcb : c.confidence.le best.confidence := by
            rcases List.mem_cons.mp hc with rfl | hcr
            · exact Q.le_refl _
            · exact (List.pairwise_cons.mp hsort).1 c hcr
          rw [Q.le_iff] at hthr hcb
          rw [Q.lt_iff] at hlt
          linarith
      · rw [getField_mergeResults_not_mem _ _ _ f hf]
        exact hc
  · exact hc

/-- Witness for C2 at the concrete `ssnRule` engine. -/
theorem C2_merge_keeps_confident_witness :
    ssnCand ∈ getField
      (RulesEngine.extractFields engineSsn "Customer 123-45-6789" (some ["ssn"])) "ssn" ∧
    (Q.dec 6 1).le ssnCand.confidence ∧
    ssnCand ∈ getField (FieldExtractor.mergeStageFields engineSsn "Customer 123-45-6789"
      ⟨"s", true, Q.dec 6 1, none, some ["ssn"]⟩ (.ok [])) "ssn" :=
  ⟨by decide, by decide,
    C2_merge_keeps_confident engineSsn "Customer 123-45-6789" "s" true (Q.dec 6 1) none
      (some ["ssn"]) (.ok []) "ssn" ssnCand (by decide) (by decide)⟩

/-! ## Claim C3 -/

/-- A custom rule with priority 100 and a trivial matcher. -/
def badPriorityRule : Rule :=
  { patterns := [⟨"x", fun _ => [⟨"abc", none, 0⟩]⟩], validators := [], priority := 100 }

def engineBadPriority : RulesEngine.State :=
  RulesEngine.addCustomRule engineBase "ssn" badPriorityRule

/-- Claim C3 counterexample: a custom rule registered with priority 100
yields a rules-stage candidate with confidence −4: `calculateConfidence`
applies `Math.min(confidence, 1.0)` but no lower clamp, so `0 ≤ confidence`
fails for `RulesEngine.extractFields` output. -/
theorem C3_counterexample :
    (getField (RulesEngine.extractFields engineBadPriority "zz" (some ["ssn"])) "ssn").map
      (fun c => c.confidence) = [Q.ofInt (-4)] ∧
    ¬ (Q.ofNat 0).le (Q.ofInt (-4)) := by
  decide

/-- Claim C3 (amended): every rules-stage candidate's confidence is at most
1 (the `Math.min(confidence, 1.0)` clamp), and every candidate in
`extract`'s final output has confidence within [0,1] (the `postProcess`
clamp); the rules-stage lower bound 0 of the original claim does not hold
(see the counterexample). -/
theorem C3_confidence_bounds :
    (∀ (st : RulesEngine.State) (text : String) (subset : Option (List String))
      (f : String) (c : Candidate),
      c ∈ getField (RulesEngine.extractFields st text subset) f →
      c.confidence.le (Q.ofNat 1)) ∧
    (∀ (st : RulesEngine.State) (text : String) (opts : FieldExtractor.Options)
      (outcome : Except String FieldMap) (dateFormat : String → String)
      (f : String) (c : Candidate),
      c ∈ getField (FieldExtractor.extract st text opts outcome dateFormat).extractedFields f →
      (Q.ofNat 0).le c.confidence ∧ c.confidence.le (Q.ofNat 1)) := by
  constructor
  · exact getField_extractFields_conf_le_one
  · intro st text opts outcome dateFormat f c hc
    obtain ⟨fields, hf⟩ := extract_extractedFields_shape st text opts outcome dateFormat
    rw [hf] at hc
    exact mem_postProcess_conf dateFormat fields f c hc

/-- Witness for C3 (amended) at the concrete `ssnRule` engine. -/
theorem C3_confidence_bounds_witness :
    (ssnCand ∈ getField
        (RulesEngine.extractFields engineSsn "Customer 123-45-6789" (some ["ssn"])) "ssn" ∧
      ssnCand.confidence.le (Q.ofNat 1)) ∧
    (ssnCand ∈ getField (FieldExtractor.extract engineSsn "Customer 123-45-6789"
        ⟨"s", false, Q.dec 6 1, none, some ["ssn"]⟩ (.error "x") df0).extractedFields "ssn" ∧
      (Q.ofNat 0).le ssnCand.confidence ∧ ssnCand.confidence.le (Q.ofNat 1)) :=
  ⟨⟨by decide, C3_confidence_bounds.1 engineSsn "Customer 123-45-6789" (some ["ssn"])
      "ssn" ssnCand (by decide)⟩,
   ⟨by decide, C3_confidence_bounds.2 engineSsn "Customer 123-45-6789"
      ⟨"s", false, Q.dec 6 1, none, some ["ssn"]⟩ (.error "x") df0 "ssn" ssnCand (by decide)⟩⟩

/-! ## Claim C4 -/

/-- A custom rule (priority 9 → confidence 0.55, below the 0.6 threshold)
whose matcher finds `A@B.co`. -/
def contactRule : Rule :=
  { patterns := [⟨"c", fun _ => [⟨"A@B.co", none, 0⟩]⟩], validators := [], priority := 9 }

def engineContact : RulesEngine.State :=
  RulesEngine.addCustomRule engineBase "contact" contactRule

/-- A fallback result holding the same value in lowercase. -/
def llmDupResults : FieldMap :=
  [("contact", [{ value := "a@b.co", confidence := Q.dec 7 1, position := none,
                  context := some "Extracted by LLM fallback", source := some "llm" }])]

/-- Claim C4 counterexample: the merge step performs no deduplication — a
fallback candidate equal (case-insensitively) to an existing rules
candidate survives alongside it, so after the merge the FieldResult holds
two candidates with the same normalized value. -/
theorem C4_counterexample :
    ((getField (FieldExtractor.mergeStageFields engineContact "zz"
        ⟨"s", true, Q.dec 6 1, none, some ["contact"]⟩ (.ok llmDupResults)) "contact").map
      (fun c => c.value)) = ["a@b.co", "A@B.co"] ∧
    ¬ (getField (FieldExtractor.mergeStageFields engineContact "zz"
        ⟨"s", true, Q.dec 6 1, none, some ["contact"]⟩ (.ok llmDupResults)) "contact").Pairwise
      (fun a b => jsToLower a.value ≠ jsToLower b.value) := by
  decide

/-- Claim C4 (amended): after the rules stage no FieldResult holds two
candidates with the same case-insensitive normalized value, and
`removeDuplicates` keeps, for each input candidate, an instance of its
normalized value with at least its confidence (the highest-confidence one);
the merge step, however, does not deduplicate (see the counterexample). -/
theorem C4_no_duplicates :
    (∀ (st : RulesEngine.State) (text : String) (subset : Option (List String)) (f : String),
      (getField (RulesEngine.extractFields st text subset) f).Pairwise
        (fun a b => jsToLower a.value ≠ jsToLower b.value)) ∧
    (∀ (ms : List Candidate) (m : Candidate), m ∈ ms →
      ∃ c ∈ RulesEngine.removeDuplicates ms,
        jsToLower c.value = jsToLower m.value ∧ m.confidence.le c.confidence) := by
  constructor
  · intro st text subset f
    rcases getField_eq_nil_or_mem (RulesEngine.extractFields st text subset) f with h | h
    · rw [h]
      exact List.Pairwise.nil
    · obtain ⟨ms, fname, rule, hms, hl⟩ := extractFields_value_shape st text subset f _ h
      rw [hl]
      exact List.Pairwise.sublist (List.take_sublist _ _) (removeDuplicates_pairwise ms)
  · exact removeDuplicates_keeps

def dupA : Candidate := ⟨"X", Q.dec 3 1, none, none, none⟩

def dupB : Candidate := ⟨"x", Q.dec 9 1, none, none, none⟩

/-- Witness for C4 (amended). -/
theorem C4_no_duplicates_witness :
    ((getField (RulesEngine.extractFields engineSsn "Customer 123-45-6789"
        (some ["ssn"])) "ssn").Pairwise
      (fun a b => jsToLower a.value ≠ jsToLower b.value)) ∧
    (dupA ∈ [dupA, dupB] ∧
      ∃ c ∈ RulesEngine.removeDuplicates [dupA, dupB],
        jsToLower c.value = jsToLower dupA.value ∧ dupA.confidence.le c.confidence) :=
  ⟨C4_no_duplicates.1 engineSsn "Customer 123-45-6789" (some ["ssn"]) "ssn",
   ⟨by decide, C4_no_duplicates.2 [dupA, dupB] dupA (by decide)⟩⟩

/-! ## Claim C5 -/

/-- Claim C5 counterexample: a backend response that fails to parse is
absorbed inside `parseExtractionResponse` as an empty result; the
invocation then completes with `llmFallbackUsed = true` and NO error
message recorded (`llmError` absent) — "the error message is recorded in
the result metadata" fails for parse failures. -/
theorem C5_counterexample :
    LLMProvider.parseExtractionResponse jsonParse0
      "The fields could not be determined" ["ssn"] = [] ∧
    (FieldExtractor.extract engineSsnEmpty "zz"
      ⟨"s", true, Q.dec 6 1, none, some ["ssn"]⟩
      (.ok (LLMProvider.parseExtractionResponse jsonParse0
        "The fields could not be determined" ["ssn"]))
      df0).metadata.llmError = none ∧
    (FieldExtractor.extract engineSsnEmpty "zz"
      ⟨"s", true, Q.dec 6 1, none, some ["ssn"]⟩
      (.ok (LLMProvider.parseExtractionResponse jsonParse0
        "The fields could not be determined" ["ssn"]))
      df0).metadata.llmFallbackUsed = true := by
  decide

/-- Claim C5 (amended): every failure thrown by the provider (network,
auth, unsupported provider, cost denial) is caught inside `extract`: the
invocation completes normally, the post-processed rules-only fields are
retained, the message is recorded in `metadata.llmError`, and
`llmFallbackUsed`/`extractionMethod` stay at their rules-only values.  A
backend parse failure is absorbed earlier as an empty result and leaves no
metadata record (see the counterexample). -/
theorem C5_fallback_errors_caught (st : RulesEngine.State) (text : String)
    (opts : FieldExtractor.Options) (e : String) (dateFormat : String → String)
    (henable : opts.enableLLMFallback = true)
    (hmiss : FieldExtractor.identifyMissingFields st
      (RulesEngine.extractFields st text opts.specificFields)
      opts.confidenceThreshold opts.specificFields ≠ []) :
    (FieldExtractor.extract st text opts (.error e) dateFormat).extractedFields =
      FieldExtractor.postProcess dateFormat
        (RulesEngine.extractFields st text opts.specificFields) ∧
    (FieldExtractor.extract st text opts (.error e) dateFormat).metadata.llmError = some e ∧
    (FieldExtractor.extract st text opts (.error e) dateFormat).metadata.llmFallbackUsed
      = false ∧
    (FieldExtractor.extract st text opts (.error e) dateFormat).metadata.extractionMethod
      = "rules" := by
  have hcond : (opts.enableLLMFallback && !(FieldExtractor.identifyMissingFields st
      (RulesEngine.extractFields st text opts.specificFields)
      opts.confidenceThreshold opts.specificFields).isEmpty) = true := by
    rw [henable, Bool.true_and, Bool.not_eq_true']
    cases hl : FieldExtractor.identifyMissingFields st
      (RulesEngine.extractFields st text opts.specificFields)
      opts.confidenceThreshold opts.specificFields with
    | nil => exact absurd hl hmiss
    | cons a as => rfl
  unfold FieldExtractor.extract
  dsimp only
  rw [hcond]
  exact ⟨rfl, rfl, rfl, rfl⟩

/-- Witness for C5 (amended) at a concrete run. -/
theorem C5_fallback_errors_caught_witness :
    (⟨"s", true, Q.dec 6 1, none, some ["ssn"]⟩ :
      FieldExtractor.Options).enableLLMFallback = true ∧
    FieldExtractor.identifyMissingFields engineSsnEmpty
      (RulesEngine.extractFields engineSsnEmpty "zz" (some ["ssn"]))
      (Q.dec 6 1) (some ["ssn"]) ≠ [] ∧
    ((FieldExtractor.extract engineSsnEmpty "zz"
        ⟨"s", true, Q.dec 6 1, none, some ["ssn"]⟩
        (.error "Ollama server is not running. Please start Ollama and try again.")
        df0).extractedFields =
      FieldExtractor.postProcess df0
        (RulesEngine.extractFields engineSsnEmpty "zz" (some ["ssn"])) ∧
      (FieldExtractor.extract engineSsnEmpty "zz"
        ⟨"s", true, Q.dec 6 1, none, some ["ssn"]⟩
        (.error "Ollama server is not running. Please start Ollama and try again.")
        df0).metadata.llmError =
          some "Ollama server is not running. Please start Ollama and try again." ∧
      (FieldExtractor.extract engineSsnEmpty "zz"
        ⟨"s", true, Q.dec 6 1, none, some ["ssn"]⟩
        (.error "Ollama server is not running. Please start Ollama and try again.")
        df0).metadata.llmFallbackUsed = false ∧
      (FieldExtractor.extract engineSsnEmpty "zz"
        ⟨"s", true, Q.dec 6 1, none, some ["ssn"]⟩
        (.error "Ollama server is not running. Please start Ollama and try again.")
        df0).metadata.extractionMethod = "rules") :=
  ⟨rfl, by decide,
    C5_fallback_errors_caught engineSsnEmpty "zz"
      ⟨"s", true, Q.dec 6 1, none, some ["ssn"]⟩
      "Ollama server is not running. Please start Ollama and try again." df0
      rfl (by decide)⟩

/-! ## Claim C6 -/

/-- Claim C6 counterexample: with no explicit subset, the custom-rule field
`ssn` has zero rules candidates yet is NOT in the gap set —
`identifyMissingFields` draws the requested fields from
`Object.keys(this.rules)`, the built-in registry only. -/
theorem C6_counterexample :
    getField (RulesEngine.extractFields engineSsnEmpty "zz" none) "ssn" = [] ∧
    "ssn" ∉ FieldExtractor.identifyMissingFields engineSsnEmpty
      (RulesEngine.extractFields engineSsnEmpty "zz" none) (Q.dec 6 1) none := by
  decide

/-- Claim C6 (amended): with an explicit field subset, every requested
field with zero rules candidates is in the gap set; with no subset, the gap
set draws only on the built-in registry keys — runtime-registered custom
fields with zero candidates are omitted (see the counterexample). -/
theorem C6_gap_detection :
    (∀ (st : RulesEngine.State) (rr : FieldMap) (thr : Q) (fs : List String) (f : String),
      f ∈ fs → getField rr f = [] →
      f ∈ FieldExtractor.identifyMissingFields st rr thr (some fs)) ∧
    (∀ (st : RulesEngine.State) (rr : FieldMap) (thr : Q) (f : String),
      f ∈ st.rules.map (fun p => p.1) → getField rr f = [] →
      f ∈ FieldExtractor.identifyMissingFields st rr thr none) :=
  ⟨identifyMissing_subset_complete, identifyMissing_builtin_complete⟩

/-- Witness for C6 (amended). -/
theorem C6_gap_detection_witness :
    ("ssn" ∈ ["ssn"] ∧ getField [] "ssn" = [] ∧
      "ssn" ∈ FieldExtractor.identifyMissingFields engineBase [] (Q.dec 6 1) (some ["ssn"])) ∧
    ("email" ∈ engineBase.rules.map (fun p => p.1) ∧ getField [] "email" = [] ∧
      "email" ∈ FieldExtractor.identifyMissingFields engineBase [] (Q.dec 6 1) none) :=
  ⟨⟨by decide, rfl,
      C6_gap_detection.1 engineBase [] (Q.dec 6 1) ["ssn"] "ssn" (by decide) rfl⟩,
   ⟨by decide, rfl,
      C6_gap_detection.2 engineBase [] (Q.dec 6 1) "email" (by decide) rfl⟩⟩

/-! ## Claim C7 -/

/-- Claim C7 counterexample: with an explicit one-field subset that is
fully extracted, `extractionRate` is 1/9 — the denominator is the full
registry size (8 built-ins + 1 custom rule), not the size of the requested
subset (which would give 1/1). -/
theorem C7_counterexample :
    (["ssn"] : List String).length = 1 ∧
    (FieldExtractor.fieldsWithValues (FieldExtractor.extract engineSsn "Customer 123-45-6789"
      ⟨"s", false, Q.dec 6 1, none, some ["ssn"]⟩ (.error "unused") df0).extractedFields).length
      = 1 ∧
    (FieldExtractor.extract engineSsn "Customer 123-45-6789"
      ⟨"s", false, Q.dec 6 1, none, some ["ssn"]⟩ (.error "unused") df0).summary.extractionRate
      = ⟨1, 9, by decide⟩ ∧
    (⟨1, 9, by decide⟩ : Q) ≠ Q.ofNat 1 := by
  decide

/-- Claim C7 (amended): `extractionRate` always equals the number of fields
with at least one candidate divided by the full registry size (built-in
rules plus custom rules), regardless of any explicit field subset. -/
theorem C7_extraction_rate (st : RulesEngine.State) (text : String)
    (opts : FieldExtractor.Options) (outcome : Except String FieldMap)
    (dateFormat : String → String) :
    (FieldExtractor.extract st text opts outcome dateFormat).summary.extractionRate =
      (Q.ofNat (FieldExtractor.fieldsWithValues
        (FieldExtractor.extract st text opts outcome dateFormat).extractedFields).length).div
        (Q.ofNat (st.rules.length + st.customRules.length)) := rfl

/-! ## Claim C8 -/

/-- Claim C8 counterexample: the requested field `ssn` ends with zero
candidates, yet `recommendedReview` is empty — no high-severity
"manual entry required" entry is produced, because candidate-less fields
are dropped from `extractedFields` before the summary is generated. -/
theorem C8_counterexample :
    getField (FieldExtractor.extract engineSsnEmpty "zz"
      ⟨"s", false, Q.dec 6 1, none, some ["ssn"]⟩ (.error "x") df0).extractedFields "ssn"
      = [] ∧
    (FieldExtractor.extract engineSsnEmpty "zz"
      ⟨"s", false, Q.dec 6 1, none, some ["ssn"]⟩ (.error "x") df0).summary.recommendedReview
      = [] := by
  decide

/-- Claim C8 (amended): `getReviewRecommendations` emits the high-severity
"manual entry required" entry exactly for fields present with an empty
candidate list, but `extract` never passes one — candidate-less fields are
dropped by `rankAndCleanResults`/`postProcess` before the summary, so the
wired pipeline's review list never contains a high-severity entry (see the
counterexample). -/
theorem C8_review_recommendations :
    (∀ (m : FieldMap) (f : String), (f, ([] : List Candidate)) ∈ m →
      ({ field := f, severity := "high",
         message := "Field not found - manual entry required",
         extractedValue := none, alternatives := none } :
        FieldExtractor.Recommendation) ∈ FieldExtractor.getReviewRecommendations m) ∧
    (∀ (st : RulesEngine.State) (text : String) (opts : FieldExtractor.Options)
      (outcome : Except String FieldMap) (dateFormat : String → String)
      (r : FieldExtractor.Recommendation),
      r ∈ (FieldExtractor.extract st text opts outcome dateFormat).summary.recommendedReview →
      r.severity ≠ "high") := by
  constructor
  · intro m f hm
    unfold FieldExtractor.getReviewRecommendations
    rw [mem_stableSortDesc]
    exact List.mem_filterMap.mpr ⟨(f, []), hm, rfl⟩
  · intro st text opts outcome dateFormat r hr
    have hrev : (FieldExtractor.extract st text opts outcome dateFormat).summary.recommendedReview
        = FieldExtractor.getReviewRecommendations
            (FieldExtractor.extract st text opts outcome dateFormat).extractedFields := rfl
    rw [hrev] at hr
    obtain ⟨fields, hf⟩ := extract_extractedFields_shape st text opts outcome dateFormat
    rw [hf] at hr
    exact review_no_high _ (postProcess_no_empty dateFormat fields) r hr

/-- A custom rule with priority 11 → confidence 0.45, below 0.5, so the run
produces a medium-severity review entry. -/
def lowConfRule : Rule :=
  { patterns := [⟨"c", fun _ => [⟨"val", none, 0⟩]⟩], validators := [], priority := 11 }

def engineLowConf : RulesEngine.State := RulesEngine.addCustomRule engineBase "ssn" lowConfRule

def medRecC8 : FieldExtractor.Recommendation :=
  { field := "ssn", severity := "medium",
    message := "Low confidence extraction - please verify",
    extractedValue := some "val", alternatives := none }

/-- Witness for C8 (amended). -/
theorem C8_review_recommendations_witness :
    (("f1", ([] : List Candidate)) ∈ [("f1", ([] : List Candidate))] ∧
      ({ field := "f1", severity := "high",
         message := "Field not found - manual entry required",
         extractedValue := none, alternatives := none } :
        FieldExtractor.Recommendation) ∈
          FieldExtractor.getReviewRecommendations [("f1", [])]) ∧
    (medRecC8 ∈ (FieldExtractor.extract engineLowConf "zz"
        ⟨"s", false, Q.dec 6 1, none, some ["ssn"]⟩ (.error "x")
        df0).summary.recommendedReview ∧
      medRecC8.severity ≠ "high") :=
  ⟨⟨by decide, C8_review_recommendations.1 [("f1", [])] "f1" (by decide)⟩,
   ⟨by decide, C8_review_recommendations.2 engineLowConf "zz"
      ⟨"s", false, Q.dec 6 1, none, some ["ssn"]⟩ (.error "x") df0 medRecC8 (by decide)⟩⟩

/-! ## Claim C9 -/

/-- Claim C9: extraction is deterministic and mutation-free: an
`extractFields` invocation leaves the engine instance unchanged; a second
identical invocation returns the same ranked output; and with fallback
disabled the whole `extract` result is independent of the would-be fallback
outcome, so two calls with identical text, rule set and disabled fallback
produce identical ranked output. -/
theorem C9_deterministic (st : RulesEngine.State) (text sessionId : String) (thr : Q)
    (mx : Option Q) (subset : Option (List String))
    (o1 o2 : Except String FieldMap) (dateFormat : String → String) :
    (RulesEngine.extractFieldsCall st text subset).1 =
      (RulesEngine.extractFieldsCall
        (RulesEngine.extractFieldsCall st text subset).2 text subset).1 ∧
    (RulesEngine.extractFieldsCall st text subset).2 = st ∧
    FieldExtractor.extract st text ⟨sessionId, false, thr, mx, subset⟩ o1 dateFormat =
      FieldExtractor.extract st text ⟨sessionId, false, thr, mx, subset⟩ o2 dateFormat :=
  ⟨rfl, rfl, rfl⟩
